import Mathlib

/-!
# Verification of the bagel-factor single-factor evaluation engine

Shallow embedding of the claim-relevant parts of the repository:

* `evaluation/ic.py`               — `calculate_ic_s`
* `evaluation/factor_return.py`    — `calculate_factor_return_grouping` (quantile labels),
                                     `calculate_factor_return_regression`
* `factors.py` / `single_factor_evaluation/single_factor_calculation.py`
                                   — `FactorSort.compute`, `FactorRegression._compute`
* `result/result.py`               — `Result.spearman_icir`
* `single_factor_evaluation/factor_evaluation.py` — `_calculate_sort_ics` (ICIR part)
* `bagelfactor/stats/regression.py` — `ols_alpha_tstat`
* `preprocessing/standardize.py`   — `standardize`
* `bagelfactor/data/align.py`      — `lag_by_asset`

Conventions of the embedding:

* A pandas float `NaN` is `Option.none`; all finite numerics are `ℚ`.
* Dates and tickers are `ℕ`.
* A long-format panel (MultiIndex `(date, ticker)` frame) is a `List Row`
  carrying the two claim-relevant columns `target` and `prediction`.
* Wide-format data (`factor_data` / `stock_next_returns`, index = dates,
  columns = tickers) is a `List (List (Option ℚ))`, one inner list per date.
* A Python exception is `Except.error` with the message text.
* A Pearson correlation value r = Sxy / √(Sxx·Syy) is represented by the
  triple `(Sxy, Sxx, Syy)` of centered sums (exact in `ℚ`; the real value is
  determined by the triple).  pandas returns `NaN` exactly when there are
  fewer than 2 valid pairs or one of the variances is zero; that is `none`.
-/

set_option maxHeartbeats 1000000

/-- Decidable equality of embedded Python outcomes (exception or value). -/
instance {ε α : Type} [DecidableEq ε] [DecidableEq α] : DecidableEq (Except ε α) := fun a b =>
  match a, b with
  | .error e, .error e' =>
    if h : e = e' then isTrue (by rw [h])
    else isFalse (by intro hh; cases hh; exact h rfl)
  | .error _, .ok _ => isFalse (by intro hh; cases hh)
  | .ok _, .error _ => isFalse (by intro hh; cases hh)
  | .ok v, .ok v' =>
    if h : v = v' then isTrue (by rw [h])
    else isFalse (by intro hh; cases hh; exact h rfl)

/-! ## Basic numeric helpers -/

/-- Mean of a list of rationals; `none` on the empty list (pandas `NaN`). -/
def omean (l : List ℚ) : Option ℚ :=
  if l = [] then none else some (l.sum / l.length)

/-- Sum of squared deviations from the mean. -/
def sqDevSum (l : List ℚ) : ℚ :=
  ((l.map (fun x => (x - l.sum / l.length) ^ 2)).sum)

/-- Sample variance with `ddof = 1` (pandas default); `NaN` (`none`) for
fewer than 2 observations.  pandas `std` is the square root of this, so
`std == 0` exactly when this is `some 0`. -/
def sampleVar (l : List ℚ) : Option ℚ :=
  if l.length < 2 then none
  else some (sqDevSum l / ((l.length : ℚ) - 1))

/-! ## Long panel model and correlation (`evaluation/ic.py`) -/

/-- One row of the canonical long panel, restricted to the two columns the
claims touch (`target` = factor, `prediction` = forward return). -/
structure Row where
  date : ℕ
  ticker : ℕ
  target : Option ℚ
  prediction : Option ℚ
deriving DecidableEq, Repr

abbrev Panel := List Row

/-- `data.xs(date, level='date')`: the rows of one date's cross-section
(in panel order).  pandas raises `KeyError` when the result is empty; the
callers embed that check. -/
def crossSection (data : Panel) (d : ℕ) : List Row :=
  data.filter (fun r => r.date = d)

/-- Rows that are non-missing in both columns, as pairs
(`dropna` over the two selected columns / the implicit pairwise drop of
`Series.corr`). -/
def validPairs (rows : List Row) : List (ℚ × ℚ) :=
  rows.filterMap (fun r =>
    match r.target, r.prediction with
    | some a, some b => some (a, b)
    | _, _ => none)

/-- Centered cross-moment Sxy of a list of pairs. -/
def sxyOf (ps : List (ℚ × ℚ)) : ℚ :=
  let mx := (ps.map Prod.fst).sum / ps.length
  let my := (ps.map Prod.snd).sum / ps.length
  (ps.map (fun p => (p.1 - mx) * (p.2 - my))).sum

/-- Pearson correlation of a list of valid pairs, in the `(Sxy, Sxx, Syy)`
representation; `none` is pandas `NaN` (fewer than 2 pairs, or a zero
variance). -/
def pearsonRepr (ps : List (ℚ × ℚ)) : Option (ℚ × ℚ × ℚ) :=
  if ps.length < 2 then none
  else
    let sxx := sqDevSum (ps.map Prod.fst)
    let syy := sqDevSum (ps.map Prod.snd)
    if sxx = 0 ∨ syy = 0 then none
    else some (sxyOf ps, sxx, syy)

/-- pandas average rank of `v` within the multiset `xs` (ties get the mean
of their positional ranks), used by `corr(method='spearman')`. -/
def avgRank (xs : List ℚ) (v : ℚ) : ℚ :=
  (xs.countP (fun x => x < v) : ℚ) + ((xs.countP (fun x => x = v) : ℚ) + 1) / 2

/-- Replace both coordinates by their average ranks (Spearman = Pearson on
ranks). -/
def spearmanPairs (ps : List (ℚ × ℚ)) : List (ℚ × ℚ) :=
  ps.map (fun p => (avgRank (ps.map Prod.fst) p.1, avgRank (ps.map Prod.snd) p.2))

inductive CorrMethod
  | spearman
  | pearson
deriving DecidableEq, Repr

/-- `Series.corr` of the two columns over the valid pairs. -/
def corrOf (m : CorrMethod) (ps : List (ℚ × ℚ)) : Option (ℚ × ℚ × ℚ) :=
  match m with
  | .spearman => pearsonRepr (spearmanPairs ps)
  | .pearson => pearsonRepr ps

/-- The IC computed by the loop body of `calculate_ic_s` at one rebalance
date: correlation of the date's cross-section after pairwise NaN-drop. -/
def icAt (data : Panel) (m : CorrMethod) (d : ℕ) : Option (ℚ × ℚ × ℚ) :=
  corrOf m (validPairs (crossSection data d))

/-- `calculate_ic_s` (`evaluation/ic.py`, lines 15–61): for each rebalance
date, `xs` the cross-section (raising `KeyError` if the date is absent),
correlate `target` with `prediction`, collect into a series indexed by the
rebalance dates, and finally `.dropna()` — dates whose correlation is `NaN`
are removed from the returned series. -/
def calculate_ic_s (data : Panel) (idx : List ℕ) (m : CorrMethod) :
    Except String (List (ℕ × (ℚ × ℚ × ℚ))) :=
  match idx with
  | [] => .ok []
  | d :: rest =>
    if crossSection data d = [] then .error "KeyError"
    else
      match calculate_ic_s data rest m with
      | .error e => .error e
      | .ok s =>
        .ok (match icAt data m d with
          | none => s
          | some v => (d, v) :: s)

/-- The series `calculate_ic_s` returns when no date raises `KeyError`. -/
def icSeries (data : Panel) (idx : List ℕ) (m : CorrMethod) :
    List (ℕ × (ℚ × ℚ × ℚ)) :=
  idx.filterMap (fun d => (icAt data m d).map (fun v => (d, v)))

/-! ## Regression factor-return extraction (`evaluation/factor_return.py`) -/

/-- Slope of the no-intercept single-regressor OLS fit, as computed by
`statsmodels` with its default `pinv` path: `Σxy/Σx²`, and the minimal-norm
solution `0` when the design column is all zero.  (`calculate_factor_return_regression`
and `FactorRegression._compute` are embedded at `intercept=False`, the
default used by every caller in the repository.) -/
def olsSlope (ps : List (ℚ × ℚ)) : ℚ :=
  let sxx := (ps.map (fun p => p.1 * p.1)).sum
  if sxx = 0 then 0 else (ps.map (fun p => p.1 * p.2)).sum / sxx

/-- The `for date in rebalance_date_index` loop of
`calculate_factor_return_regression` (`evaluation/factor_return.py`,
lines 89–125), producing the `factor_returns` list it appends to: a date
with no rows in the panel raises `KeyError` inside the `try`, is caught,
and `continue`s — appending NOTHING for that date; a present date whose
NA-dropped regression frame is empty appends `NaN` (`none`); otherwise the
method STRING is dispatched — `OLS` appends the pinv slope, `WLS` raises
(`ValueError` when no weights were supplied; with weights supplied,
`sm.WLS(y, X, weights=weights, **kwargs)` passes the `weights` keyword
twice and raises `TypeError`), `RLM` appends the fitted slope (supplied as
the function parameter `rlmF`: the claims depend only on whether the date
is fitted, not on the fitted value), and an unknown name raises
`ValueError`. -/
def factorReturnsLoop (rlmF : List (ℚ × ℚ) → ℚ)
    (data : Panel) (idx : List ℕ) (method : String) (weights : Option (List ℚ)) :
    Except String (List (Option ℚ)) :=
  match idx with
  | [] => .ok []
  | d :: rest =>
    if crossSection data d = [] then
      factorReturnsLoop rlmF data rest method weights
    else
      let ps := validPairs (crossSection data d)
      let step : Except String (Option ℚ) :=
        if ps = [] then .ok none
        else if method = "OLS" then .ok (some (olsSlope ps))
        else if method = "WLS" then
          match weights with
          | none => .error "WLS method requires weights in kwargs"
          | some _ => .error "TypeError: WLS got multiple values for keyword argument weights"
        else if method = "RLM" then .ok (some (rlmF ps))
        else .error ("Unknown regression method: " ++ method)
      match step with
      | .error e => .error e
      | .ok o =>
        match factorReturnsLoop rlmF data rest method weights with
        | .error e => .error e
        | .ok s => .ok (o :: s)

/-- `calculate_factor_return_regression` (`evaluation/factor_return.py`,
lines 61–128): run the per-date loop, then build
`pd.DataFrame({'factor_return': factor_returns}, index=rebalance_date_index)`
— which raises `ValueError` whenever the appended list is SHORTER than the
index, i.e. exactly when some rebalance date was skipped by the
`except KeyError: continue` — pair the values positionally with the index
dates, and let the final `.dropna()` remove the `NaN` entries. -/
def calculate_factor_return_regression (rlmF : List (ℚ × ℚ) → ℚ)
    (data : Panel) (idx : List ℕ) (method : String) (weights : Option (List ℚ)) :
    Except String (List (ℕ × ℚ)) :=
  match factorReturnsLoop rlmF data idx method weights with
  | .error e => .error e
  | .ok vals =>
    if vals.length = idx.length then
      .ok ((idx.zip vals).filterMap (fun p => p.2.map (fun v => (p.1, v))))
    else .error "Length of values does not match length of index"

/-! ## `FactorRegression._compute`
(`single_factor_evaluation/single_factor_calculation.py`, lines 149–200) -/

/-- The valid `(x, y)` pairs of one date row of the wide data
(`mask = x.notna() & y.notna()`). -/
def rowPairs (x y : List (Option ℚ)) : List (ℚ × ℚ) :=
  (x.zip y).filterMap (fun p =>
    match p.1, p.2 with
    | some a, some b => some (a, b)
    | _, _ => none)

/-- `self.weights.loc[date][mask]`: the weights of the valid positions. -/
def maskWeights (w : List ℚ) (x y : List (Option ℚ)) : List ℚ :=
  (w.zip (x.zip y)).filterMap (fun p =>
    match p.2.1, p.2.2 with
    | some _, some _ => some p.1
    | _, _ => none)

/-- `FactorRegression._compute`: one regression per date row of the wide
data (`rows` = the shared index with the aligned `factor_data` and
`stock_next_returns` rows).  A date with fewer than 2 valid observations is
recorded as `NaN` (`none`), keeping the full date index.  The method branch
runs after that check; `WLS` with no weights (or a date missing from the
weights index) silently fits the UNWEIGHTED model — `statsmodels.WLS` with
default unit weights, whose slope equals the OLS slope — and an unknown
method raises `ValueError`. -/
def factorRegressionCompute
    (wlsF : List (ℚ × ℚ) → List ℚ → ℚ) (rlmF : List (ℚ × ℚ) → ℚ)
    (method : String) (weights : Option (List (ℕ × List ℚ)))
    (rows : List (ℕ × List (Option ℚ) × List (Option ℚ))) :
    Except String (List (Option ℚ)) :=
  match rows with
  | [] => .ok []
  | (d, x, y) :: rest =>
    let ps := rowPairs x y
    let step : Except String (Option ℚ) :=
      if ps.length < 2 then .ok none
      else if method = "OLS" then .ok (some (olsSlope ps))
      else if method = "WLS" then
        match weights with
        | some ws =>
          match ws.lookup d with
          | some w => .ok (some (wlsF ps (maskWeights w x y)))
          | none => .ok (some (olsSlope ps))
        | none => .ok (some (olsSlope ps))
      else if method = "RLM" then .ok (some (rlmF ps))
      else .error ("Unknown regression_method: " ++ method)
    match step with
    | .error e => .error e
    | .ok o =>
      match factorRegressionCompute wlsF rlmF method weights rest with
      | .error e => .error e
      | .ok s => .ok (o :: s)

/-! ## `pd.qcut` (type-7 quantiles, right-closed equal-frequency bins) -/

/-- Linear-interpolation quantile lookup on a sorted list: at fractional
position `h`, interpolate between the neighbouring order statistics
(numpy/pandas default `interpolation='linear'`). -/
def interpSorted (s : List ℚ) (h : ℚ) : ℚ :=
  s.getD (Int.floor h).toNat 0 +
    (h - ((Int.floor h).toNat : ℚ)) *
      (s.getD ((Int.floor h).toNat + 1) (s.getD (Int.floor h).toNat 0) -
        s.getD (Int.floor h).toNat 0)

/-- The fractional position of the `j/q` quantile in a sorted list of `n`
values: `(j/q) * (n - 1)`. -/
def quantilePos (n q j : ℕ) : ℚ :=
  ((j : ℚ) * ((n : ℚ) - 1)) / q

/-- The `q+1` bin edges `pd.qcut` computes: quantiles at probabilities
`j/q`, `j = 0..q`, of the non-missing values. -/
def qEdges (s : List ℚ) (q : ℕ) : List ℚ :=
  (List.range (q + 1)).map (fun j => interpSorted s (quantilePos s.length q j))

/-- The `q-1` interior edges; with right-closed bins, the 0-based label of a
value is the number of interior edges strictly below it. -/
def interiorEdges (s : List ℚ) (q : ℕ) : List ℚ :=
  (List.range (q - 1)).map (fun j => interpSorted s (quantilePos s.length q (j + 1)))

/-- Boolean strict ascending chain (used for the `Bin edges must be unique`
check of `pd.qcut`: monotone edges are all distinct iff strictly ascending). -/
def strictAsc : List ℚ → Bool
  | [] => true
  | [_] => true
  | a :: b :: t => decide (a < b) && strictAsc (b :: t)

/-- 0-based `qcut` label of a value `v` (bins are right-closed, the lowest
bin is extended to include the minimum). -/
def qcutLabel (s : List ℚ) (q : ℕ) (v : ℚ) : ℕ :=
  (interiorEdges s q).countP (fun e => e < v)

/-- `pd.qcut(vals, q, labels=False)`: `none` models the
`ValueError: Bin edges must be unique` raise; otherwise each non-missing
entry gets its 0-based bin label and missing entries stay `NaN`. -/
def qcut (vals : List (Option ℚ)) (q : ℕ) : Option (List (Option ℕ)) :=
  let s := (vals.filterMap id).mergeSort (fun a b => a ≤ b)
  if strictAsc (qEdges s q) then
    some (vals.map (Option.map (fun v => qcutLabel s q v)))
  else none

/-- The per-date quantile assignment performed inside
`calculate_factor_return_grouping` (`evaluation/factor_return.py`, lines
41–51): `pd.qcut(current_data[target], q=group_num, labels=False)` on one
rebalance date's cross-section. -/
def groupingLabelsAt (data : Panel) (d : ℕ) (group_num : ℕ) :
    Option (List (Option ℕ)) :=
  qcut ((crossSection data d).map (fun r => r.target)) group_num

/-! ## `FactorSort.compute` (`factors.py`, lines 72–100) -/

/-- The `method='first'` rank of the value `v` sitting at column position
`t` of a row: 1 + the number of non-missing values that are smaller, or
equal and earlier in column order. -/
def rankVal (row : List (Option ℚ)) (t : ℕ) (v : ℚ) : ℚ :=
  1 + ((row.enum.countP (fun p =>
    match p.2 with
    | some w => decide (w < v ∨ (w = v ∧ p.1 < t))
    | none => false) : ℕ) : ℚ)

/-- `DataFrame.rank(axis=1, method='first', ascending=True)` on one date
row. -/
def rankFirstRow (row : List (Option ℚ)) : List (Option ℚ) :=
  row.enum.map (fun p => p.2.map (fun v => rankVal row p.1 v))

/-- `ranked_data.stack()`: all non-missing cells in row-major order. -/
def stackVals (rows : List (List (Option ℚ))) : List ℚ :=
  (rows.map (fun r => r.filterMap id)).flatten

/-- The group labels of `FactorSort.compute`: ranks are per-date, but
`pd.qcut` is applied to the STACKED ranks of all dates at once, so the bin
edges are global across dates; labels are 1-based (`+ 1`). -/
def sortGroupLabels (F : List (List (Option ℚ))) (q : ℕ) :
    Option (List (List (Option ℕ))) :=
  let ranked := F.map rankFirstRow
  let s := (stackVals ranked).mergeSort (fun a b => a ≤ b)
  if strictAsc (qEdges s q) then
    some (ranked.map (fun row => row.map (Option.map (fun v => qcutLabel s q v + 1))))
  else none

/-- `(stock_next_returns.where(mask)).mean(axis=1)` for one date row and one
group: the mean of the non-missing returns of the stocks labelled `g`;
`NaN` when there are none. -/
def maskedMean (labels : List (Option ℕ)) (rets : List (Option ℚ)) (g : ℕ) : Option ℚ :=
  omean ((labels.zip rets).filterMap (fun p => if p.1 = some g then p.2 else none))

/-- `FactorSort.compute`'s `factor_next_returns`: per date, mean return of
group `q` minus mean return of group `1` (`NaN` propagates). -/
def factorSortSpread (F R : List (List (Option ℚ))) (q : ℕ) :
    Option (List (Option ℚ)) :=
  (sortGroupLabels F q).map (fun ls =>
    (ls.zip R).map (fun p =>
      match maskedMean p.1 p.2 q, maskedMean p.1 p.2 1 with
      | some a, some b => some (a - b)
      | _, _ => none))

/-! ## ICIR entry points (`result/result.py` lines 95–113,
`single_factor_evaluation/factor_evaluation.py` lines 105–109) -/

/-- Outcome of `Result.spearman_icir` / `Result.pearson_icir`.  The finite
value mean/std is represented by `(mean, var)` with std = √var. -/
inductive IcirOutcome
  | raiseZeroDiv
  | nanVal
  | icirVal (mean var : ℚ)
deriving DecidableEq, Repr

/-- `Result.spearman_icir`: `std = ic.std()`; `if std == 0: raise
ZeroDivisionError`; otherwise `ic.mean() / std`.  The input is the IC
series, which `calculate_ic_s` returns already NaN-free.  With fewer than 2
ICs the std is `NaN`, the `== 0` test is false, and the division yields
`NaN`. -/
def spearman_icir (ics : List ℚ) : IcirOutcome :=
  match sampleVar ics with
  | none => .nanVal
  | some v => if v = 0 then .raiseZeroDiv else .icirVal (ics.sum / ics.length) v

/-- Classification of the float computed by `_calculate_sort_ics`.  A finite
nonzero denominator case carries the numerator and the variances of the
defined column stds (denominator = mean of their square roots). -/
inductive FloatClass
  | nanF
  | posInf
  | negInf
  | finiteRepr (num : ℚ) (vars : List ℚ)
deriving DecidableEq, Repr

/-- Column mean skipping `NaN` (`DataFrame.mean`); `NaN` when empty. -/
def colMean (c : List (Option ℚ)) : Option ℚ := omean (c.filterMap id)

/-- Column sample variance skipping `NaN` (std = its square root). -/
def colVar (c : List (Option ℚ)) : Option ℚ := sampleVar (c.filterMap id)

/-- Mean of a row of possibly-`NaN` floats, skipping `NaN` (`Series.mean`). -/
def pandasMean (l : List (Option ℚ)) : Option ℚ := omean (l.filterMap id)

/-- The ICIR of `_calculate_sort_ics`: `ic_mean / ic_s.std().mean()` with
plain float division and NO zero check.  `ic_s` has the two columns
`pearson` and `spearman`; the denominator is the mean of the two column
stds.  Float semantics: `x/0` is `±inf` for `x ≠ 0` and `NaN` for `x = 0`;
anything over `NaN` is `NaN`. -/
def sortIcir (p s : List (Option ℚ)) : FloatClass :=
  let num := pandasMean [colMean p, colMean s]
  let ds := ([colVar p, colVar s]).filterMap id
  if ds = [] then .nanF
  else if ds.all (fun d => d = 0) then
    match num with
    | none => .nanF
    | some m => if 0 < m then .posInf else if m < 0 then .negInf else .nanF
  else
    match num with
    | none => .nanF
    | some m => .finiteRepr m ds

/-! ## `ols_alpha_tstat` (`bagelfactor/stats/regression.py`, lines 18–68) -/

/-- The `OLSResult` dataclass; `NaN` fields are `none`. -/
structure OLSResultQ where
  alpha : Option ℚ
  tstat : Option ℚ
  pvalue : Option ℚ
  nobs : ℕ
  rsquared : Option ℚ
deriving DecidableEq, Repr

/-- Outputs extracted from a fitted `statsmodels` OLS model: first-column
(= intercept, since `add_constant` prepends) coefficient, t-value, p-value,
and r-squared.  Supplied as a function parameter: the claim is about the
alignment/valid-count logic around the fit, not the fitted values. -/
structure FitQ where
  param0 : ℚ
  tval0 : ℚ
  pval0 : ℚ
  rsq : ℚ
deriving DecidableEq, Repr

/-- The `x` argument of `ols_alpha_tstat`: absent, a plain array/Series with
a default `RangeIndex`, or a Series with an explicit integer index. -/
inductive XArg
  | noX
  | rangeX (xs : List (Option ℚ))
  | labeledX (xs : List (ℕ × Option ℚ))
deriving DecidableEq, Repr

/-- `pd.Series(y).dropna()`: the non-missing values keeping their original
positional index labels. -/
def dropnaIdx (y : List (Option ℚ)) : List (ℕ × ℚ) :=
  y.enum.filterMap (fun p => p.2.map (fun v => (p.1, v)))

/-- The aligned `(y, x)` frame of `ols_alpha_tstat` after `X.dropna()` and
the re-alignment of `y`, or the `ValueError` that
`pd.Series(values, index)` raises when a positionally-aligned `x` has a
different length from the NaN-dropped `y`. -/
def alignedYX (y : List (Option ℚ)) (x : XArg) :
    Except String (List (ℚ × Option ℚ)) :=
  let yv := dropnaIdx y
  match x with
  | .noX => .ok (yv.map (fun p => (p.2, none)))
  | .rangeX xs =>
    if xs.length = yv.length then
      .ok ((yv.zip xs).map (fun p => (p.1.2, p.2)))
    else .error "Length of values does not match length of index"
  | .labeledX xs =>
    if xs.length = yv.length then
      .ok ((yv.zip (xs.map Prod.snd)).map (fun p => (p.1.2, p.2)))
    else
      .ok (yv.map (fun p => (p.2, match xs.lookup p.1 with
        | some o => o
        | none => none)))

/-- The valid observations that survive `X.dropna()` (for the mean test the
design frame has no data column, so nothing is dropped). -/
def validYX (x : XArg) (rows : List (ℚ × Option ℚ)) : List (ℚ × Option ℚ) :=
  match x with
  | .noX => rows
  | _ => rows.filter (fun p => p.2.isSome)

/-- `ols_alpha_tstat(y, x, add_const=True)`: drop missing `y`; align `x`
positionally when it has a `RangeIndex` or its length matches, else by
index; drop rows with missing `x`; with fewer than 3 valid observations
return the `NaN`-filled result carrying the valid count, otherwise fit OLS
on `const + x` and report the intercept row. -/
def ols_alpha_tstat (fit : List (ℚ × Option ℚ) → FitQ) (y : List (Option ℚ))
    (x : XArg) : Except String OLSResultQ :=
  match alignedYX y x with
  | .error e => .error e
  | .ok rows =>
    let v := validYX x rows
    if v.length < 3 then
      .ok ⟨none, none, none, v.length, none⟩
    else
      let f := fit v
      .ok ⟨some f.param0, some f.tval0, some f.pval0, v.length, some f.rsq⟩

/-! ## Frame model for `standardize` and `lag_by_asset`
(`preprocessing/standardize.py` lines 25–67, `bagelfactor/data/align.py`
lines 73–89).

Python mutability is made explicit: each embedded function returns the
caller-visible state of the argument frame after the call as its first
component (the source's `result = data.copy()` / `out = panel.copy()`
means every write targets a fresh object, so that state is the input
value), and the returned frame (or raised error) as its second. -/

/-- A long-format frame: per-row `date` and `ticker` index labels plus named
numeric columns (pandas column labels are unique in all uses). -/
structure Frame where
  dates : List ℕ
  assets : List ℕ
  cols : List (String × List (Option ℚ))
deriving DecidableEq, Repr

/-- Column lookup (first match). -/
def getColList : List (String × List (Option ℚ)) → String → Option (List (Option ℚ))
  | [], _ => none
  | p :: t, c => if p.1 = c then some p.2 else getColList t c

def getCol (f : Frame) (c : String) : Option (List (Option ℚ)) :=
  getColList f.cols c

/-- `frame[c] = v`: replace the column if present, else append it. -/
def setColList (l : List (String × List (Option ℚ))) (c : String)
    (v : List (Option ℚ)) : List (String × List (Option ℚ)) :=
  match l with
  | [] => [(c, v)]
  | p :: t => if p.1 = c then (c, v) :: t else p :: setColList t c v

def setCol (f : Frame) (c : String) (v : List (Option ℚ)) : Frame :=
  { f with cols := setColList f.cols c v }

/-- `groupby(keys)[col].transform(m)`: apply `m` to each key's subsequence
and place the results back at the original row positions. -/
def groupTransform (keys : List ℕ) (vals : List (Option ℚ))
    (m : List (Option ℚ) → List (Option ℚ)) : List (Option ℚ) :=
  (List.range vals.length).map (fun i =>
    let k := keys.getD i 0
    (m ((keys.zip vals).filterMap (fun p => if p.1 = k then some p.2 else none))).getD
      ((keys.take i).countP (fun a => a = k)) none)

/-- The output field names of `standardize` (suffix appended when given). -/
def outFieldNames (data_fields : List String) (suffix : Option String) : List String :=
  data_fields.map (fun f => match suffix with
    | some s0 => f ++ "_" ++ s0
    | none => f)

/-- `standardize` (`preprocessing/standardize.py`): copy the frame, then for
each field write the group-transformed column into the copy under the
output name (grouping by `date` when `cross_section` else by `ticker`).  A
field absent from the frame raises `KeyError` at its turn.  First component
= caller-visible state of `data` after the call. -/
def standardize (data : Frame) (data_fields : List String)
    (method : List (Option ℚ) → List (Option ℚ)) (cross_section : Bool)
    (suffix : Option String) : Frame × Except String Frame :=
  let pairs := data_fields.zip (outFieldNames data_fields suffix)
  let step : Frame → String × String → Except String Frame := fun fr p =>
    match getCol fr p.1 with
    | none => .error "KeyError"
    | some v =>
      .ok (setCol fr p.2 (groupTransform
        (if cross_section then fr.dates else fr.assets) v method))
  (data, pairs.foldlM step data)

/-- `groupby(level='asset').shift(periods)` for one column. -/
def shiftGroup (keys : List ℕ) (vals : List (Option ℚ)) (periods : ℤ) :
    List (Option ℚ) :=
  (List.range vals.length).map (fun i =>
    let k := keys.getD i 0
    let grp := (keys.zip vals).filterMap (fun p => if p.1 = k then some p.2 else none)
    let pos : ℤ := ((keys.take i).countP (fun a => a = k) : ℤ) - periods
    if 0 ≤ pos then grp.getD pos.toNat none else none)

/-- `lag_by_asset` (`bagelfactor/data/align.py`): copy the panel, raise
`KeyError` when a requested column is missing, else overwrite each listed
column with its per-asset shift.  First component = caller-visible state of
`panel` after the call.  (The listed column names are distinct in all
uses, so the columnwise fold equals the source's single block
assignment.) -/
def lag_by_asset (panel : Frame) (columns : List String) (periods : ℤ) :
    Frame × Except String Frame :=
  ( panel,
    if columns.any (fun c => (getCol panel c).isNone) then
      .error "KeyError: Missing columns"
    else
      .ok (columns.foldl (fun fr c =>
        match getCol fr c with
        | none => fr
        | some v => setCol fr c (shiftGroup fr.assets v periods)) panel) )

/-! ## Concrete instances used in the theorems below -/

/-- Trivial stand-in for the WLS fitted slope (claims never depend on it). -/
def wls0 : List (ℚ × ℚ) → List ℚ → ℚ := fun _ _ => 0

/-- Trivial stand-in for the RLM fitted slope (claims never depend on it). -/
def rlm0 : List (ℚ × ℚ) → ℚ := fun _ => 0

/-- Trivial stand-in for the abstract OLS fit of `ols_alpha_tstat`. -/
def fit0 : List (ℚ × Option ℚ) → FitQ := fun _ => ⟨0, 0, 0, 0⟩

/-- Panel with two valid rows at date 1 and a single valid row at date 2. -/
def panelA : Panel :=
  [⟨1, 0, some 1, some 1⟩, ⟨1, 1, some 2, some 2⟩, ⟨2, 0, some 1, some 1⟩]

/-- Panel with two valid rows at each of dates 1 and 2. -/
def panelB : Panel :=
  [⟨1, 0, some 1, some 1⟩, ⟨1, 1, some 2, some 2⟩,
   ⟨2, 0, some 1, some 1⟩, ⟨2, 1, some 2, some 2⟩]

/-- `panelB` with the data at date 2 (strictly after date 1) perturbed. -/
def panelB' : Panel :=
  [⟨1, 0, some 1, some 1⟩, ⟨1, 1, some 2, some 2⟩,
   ⟨2, 0, some 5, some 7⟩, ⟨2, 1, some 2, none⟩]

/-- Panel whose only date has exactly one valid observation (x=2, y=4). -/
def panelOne : Panel := [⟨1, 0, some 2, some 4⟩]

/-- Panel whose only date has a nonempty cross-section but no valid rows. -/
def panelNoValid : Panel := [⟨1, 0, none, some 1⟩]

/-- One date whose cross-section has the tied factor values 1, 2, 2, 5. -/
def panelTies : Panel :=
  [⟨1, 0, some 1, some 1⟩, ⟨1, 1, some 2, some 1⟩,
   ⟨1, 2, some 2, some 1⟩, ⟨1, 3, some 5, some 1⟩]

/-- Wide factor data: date 0 has four non-missing stocks, date 1 only two.
Forward returns are taken identical to the factor (an increasing map). -/
def wideF : List (List (Option ℚ)) :=
  [[some 1, some 2, some 3, some 4], [some 1, some 2, none, none]]

/-! ## Helper lemmas about `calculate_ic_s` -/

theorem calculate_ic_s_ok_eq {data : Panel} {idx : List ℕ} {m : CorrMethod}
    {s : List (ℕ × (ℚ × ℚ × ℚ))} (h : calculate_ic_s data idx m = .ok s) :
    s = icSeries data idx m := by
  induction idx generalizing s with
  | nil => simpa [calculate_ic_s, icSeries] using h.symm
  | cons d rest ih =>
    unfold calculate_ic_s at h
    by_cases hcs : crossSection data d = []
    · simp [hcs] at h
    · simp only [hcs, if_neg, ite_false] at h
      rcases hrec : calculate_ic_s data rest m with e | s'
      · rw [hrec] at h; exact absurd h (by simp)
      · rw [hrec] at h
        simp only [Except.ok.injEq] at h
        subst h
        cases hic : icAt data m d with
        | none => simp [icSeries, hic, ih hrec]
        | some v => simp [icSeries, hic, ih hrec]

theorem calculate_ic_s_ok_of {data : Panel} {idx : List ℕ} {m : CorrMethod}
    (h : ∀ d ∈ idx, crossSection data d ≠ []) :
    calculate_ic_s data idx m = .ok (icSeries data idx m) := by
  induction idx with
  | nil => simp [calculate_ic_s, icSeries]
  | cons d rest ih =>
    have hd : crossSection data d ≠ [] := h d (by simp)
    have hrest := ih (fun x hx => h x (by simp [hx]))
    unfold calculate_ic_s
    rw [if_neg hd, hrest]
    cases hic : icAt data m d with
    | none => simp [icSeries, hic]
    | some v => simp [icSeries, hic]

theorem calculate_ic_s_error_of {data : Panel} {idx : List ℕ} {m : CorrMethod}
    {d : ℕ} (hd : d ∈ idx) (hcs : crossSection data d = []) :
    ∃ e, calculate_ic_s data idx m = .error e := by
  induction idx with
  | nil => cases hd
  | cons a rest ih =>
    unfold calculate_ic_s
    by_cases ha : crossSection data a = []
    · exact ⟨"KeyError", by rw [if_pos ha]⟩
    · rw [if_neg ha]
      have hd' : d ∈ rest := by
        rcases List.mem_cons.mp hd with h | h
        · exact absurd hcs (h ▸ ha)
        · exact h
      obtain ⟨e, he⟩ := ih hd'
      exact ⟨e, by rw [he]⟩

theorem crossSection_eq_of_agree {data data' : Panel} {D : ℕ}
    (h : data.filter (fun r => r.date ≤ D) = data'.filter (fun r => r.date ≤ D)) :
    crossSection data D = crossSection data' D := by
  have key : ∀ (l : Panel),
      l.filter (fun r => r.date = D) =
        (l.filter (fun r => r.date ≤ D)).filter (fun r => r.date = D) := by
    intro l
    rw [List.filter_filter]
    refine (List.filter_congr ?_).symm
    intro a _
    by_cases ha : a.date = D
    · simp [ha]
    · simp [ha]
  unfold crossSection
  rw [key data, key data', h]

theorem icSeries_filter_at {data data' : Panel} {m : CorrMethod} {D : ℕ}
    (h : icAt data m D = icAt data' m D) (idx : List ℕ) :
    (icSeries data idx m).filter (fun p => p.1 = D) =
      (icSeries data' idx m).filter (fun p => p.1 = D) := by
  induction idx with
  | nil => simp [icSeries]
  | cons d rest ih =>
    by_cases hd : d = D
    · subst hd
      unfold icSeries
      simp only [List.filterMap_cons]
      rw [← h]
      cases hic : icAt data m d with
      | none => simpa [icSeries] using ih
      | some v =>
        simp only [Option.map_some']
        rw [List.filter_cons_of_pos (by simp)]
        rw [List.filter_cons_of_pos (by simp)]
        simpa [icSeries] using congrArg (List.cons (d, v)) ih
    · unfold icSeries
      simp only [List.filterMap_cons]
      cases hic : icAt data m d with
      | none =>
        cases hic' : icAt data' m d with
        | none => simpa [icSeries] using ih
        | some v' =>
          rw [Option.map_some', List.filter_cons_of_neg (by simp [hd])]
          simpa [icSeries] using ih
      | some v =>
        rw [Option.map_some', List.filter_cons_of_neg (by simp [hd])]
        cases hic' : icAt data' m d with
        | none => simpa [icSeries] using ih
        | some v' =>
          rw [Option.map_some', List.filter_cons_of_neg (by simp [hd])]
          simpa [icSeries] using ih

/-- C1 — Anti-lookahead noninterference: two panels that agree on all rows
dated `≤ D` produce the identical per-date IC at `D` (the loop body of
`calculate_ic_s` reads only date `D`'s cross-section), and whenever both
full runs return a series, those series agree on their date-`D` entries.
Data strictly after `D` therefore never changes the value computed for
`D`. -/
theorem ic_anti_lookahead (data data' : Panel) (idx : List ℕ) (m : CorrMethod)
    (D : ℕ) (hD : D ∈ idx)
    (hagree : data.filter (fun r => r.date ≤ D) = data'.filter (fun r => r.date ≤ D)) :
    icAt data m D = icAt data' m D ∧
    ∀ s s', calculate_ic_s data idx m = .ok s → calculate_ic_s data' idx m = .ok s' →
      s.filter (fun p => p.1 = D) = s'.filter (fun p => p.1 = D) := by
  have hcs := crossSection_eq_of_agree hagree
  have hic : icAt data m D = icAt data' m D := by unfold icAt; rw [hcs]
  refine ⟨hic, ?_⟩
  intro s s' hs hs'
  rw [calculate_ic_s_ok_eq hs, calculate_ic_s_ok_eq hs']
  exact icSeries_filter_at hic idx

theorem ic_anti_lookahead_witness :
    1 ∈ [1, 2] ∧
    panelB.filter (fun r => r.date ≤ 1) = panelB'.filter (fun r => r.date ≤ 1) ∧
    (icAt panelB CorrMethod.spearman 1 = icAt panelB' CorrMethod.spearman 1 ∧
      ∀ s s', calculate_ic_s panelB [1, 2] CorrMethod.spearman = .ok s →
        calculate_ic_s panelB' [1, 2] CorrMethod.spearman = .ok s' →
        s.filter (fun p => p.1 = 1) = s'.filter (fun p => p.1 = 1)) :=
  ⟨by decide, by decide,
    ic_anti_lookahead panelB panelB' [1, 2] CorrMethod.spearman 1 (by decide) (by decide)⟩

/-! ## C3 — shape of the IC series -/

theorem icSeries_map_fst (data : Panel) (m : CorrMethod) (idx : List ℕ) :
    (icSeries data idx m).map Prod.fst =
      idx.filter (fun d => (icAt data m d).isSome) := by
  induction idx with
  | nil => simp [icSeries]
  | cons d rest ih =>
    unfold icSeries
    simp only [List.filterMap_cons]
    cases hic : icAt data m d with
    | none => simpa [icSeries, hic] using ih
    | some v => simpa [icSeries, hic] using ih

theorem icSeries_mem {data : Panel} {m : CorrMethod} {idx : List ℕ}
    {p : ℕ × (ℚ × ℚ × ℚ)} (hp : p ∈ icSeries data idx m) :
    icAt data m p.1 = some p.2 := by
  induction idx with
  | nil => simp [icSeries] at hp
  | cons d rest ih =>
    unfold icSeries at hp
    simp only [List.filterMap_cons] at hp
    cases hic : icAt data m d with
    | none => rw [hic] at hp; exact ih hp
    | some v =>
      rw [hic] at hp
      rcases List.mem_cons.mp hp with h | h
      · subst h; exact hic
      · exact ih h

/-- C3 counterexample — the claim as stated is false on the code: (a) a
rebalance date whose cross-section has fewer than 2 valid rows (date 2 of
`panelA`) does NOT appear in the output of `calculate_ic_s` at all — the
final `.dropna()` removes it instead of keeping a `NaN` entry; (b) the
output is indexed in rebalance-index order, not ascending date order. -/
theorem calculate_ic_s_dropna_counterexample :
    (calculate_ic_s panelA [1, 2] CorrMethod.spearman).map (fun s => s.map Prod.fst) =
      .ok [1] ∧
    (calculate_ic_s panelB [2, 1] CorrMethod.spearman).map (fun s => s.map Prod.fst) =
      .ok [2, 1] := by
  constructor <;> with_unfolding_all rfl

/-- C3 amended — when every rebalance date has a nonempty cross-section,
`calculate_ic_s` returns, in rebalance-index order, exactly the dates whose
cross-sectional correlation is defined, each paired with that correlation;
a date with fewer than 2 valid rows (or zero variance) has a `NaN`
correlation and is dropped from the output by the final `.dropna()`, not
kept as a `NaN` entry. -/
theorem calculate_ic_s_spec (data : Panel) (idx : List ℕ) (m : CorrMethod)
    (h : ∀ d ∈ idx, crossSection data d ≠ []) :
    calculate_ic_s data idx m = .ok (icSeries data idx m) ∧
    (icSeries data idx m).map Prod.fst =
      idx.filter (fun d => (icAt data m d).isSome) ∧
    (∀ p ∈ icSeries data idx m, icAt data m p.1 = some p.2) ∧
    ∀ d ∈ idx, icAt data m d = none → ¬ d ∈ (icSeries data idx m).map Prod.fst := by
  refine ⟨calculate_ic_s_ok_of h, icSeries_map_fst data m idx,
    fun p hp => icSeries_mem hp, ?_⟩
  intro d _ hnone hd
  rw [icSeries_map_fst data m idx] at hd
  have := List.of_mem_filter hd
  rw [hnone] at this
  simp at this

theorem calculate_ic_s_spec_witness :
    (∀ d ∈ [1, 2], crossSection panelA d ≠ []) ∧
    (calculate_ic_s panelA [1, 2] CorrMethod.spearman =
      .ok (icSeries panelA [1, 2] CorrMethod.spearman) ∧
    (icSeries panelA [1, 2] CorrMethod.spearman).map Prod.fst =
      [1, 2].filter (fun d => (icAt panelA CorrMethod.spearman d).isSome) ∧
    (∀ p ∈ icSeries panelA [1, 2] CorrMethod.spearman,
      icAt panelA CorrMethod.spearman p.1 = some p.2) ∧
    ∀ d ∈ [1, 2], icAt panelA CorrMethod.spearman d = none →
      ¬ d ∈ (icSeries panelA [1, 2] CorrMethod.spearman).map Prod.fst) :=
  ⟨by decide, calculate_ic_s_spec panelA [1, 2] CorrMethod.spearman (by decide)⟩

/-! ## Lemmas about the regression loop and the final frame construction -/

theorem loop_cons_missing {data : Panel} {d : ℕ} (hcs : crossSection data d = [])
    (rlmF : List (ℚ × ℚ) → ℚ) (method : String) (weights : Option (List ℚ))
    (rest : List ℕ) :
    factorReturnsLoop rlmF data (d :: rest) method weights =
      factorReturnsLoop rlmF data rest method weights := by
  conv_lhs => rw [factorReturnsLoop.eq_def]
  simp only []
  rw [if_pos hcs]

theorem loop_cons_novalid {data : Panel} {d : ℕ}
    (hcs : crossSection data d ≠ []) (hvp : validPairs (crossSection data d) = [])
    (rlmF : List (ℚ × ℚ) → ℚ) (method : String) (weights : Option (List ℚ))
    (rest : List ℕ) :
    factorReturnsLoop rlmF data (d :: rest) method weights =
      (factorReturnsLoop rlmF data rest method weights).map (fun s => none :: s) := by
  conv_lhs => rw [factorReturnsLoop.eq_def]
  simp only []
  rw [if_neg hcs]
  simp only [hvp, reduceIte]
  cases factorReturnsLoop rlmF data rest method weights <;> rfl

theorem loop_ols_ok (rlmF : List (ℚ × ℚ) → ℚ) (data : Panel) (idx : List ℕ)
    (weights : Option (List ℚ)) :
    factorReturnsLoop rlmF data idx "OLS" weights =
      .ok ((idx.filter (fun d => crossSection data d ≠ [])).map
        (fun d => if validPairs (crossSection data d) = [] then none
          else some (olsSlope (validPairs (crossSection data d))))) := by
  induction idx with
  | nil => rfl
  | cons a rest ih =>
    by_cases hcs : crossSection data a = []
    · rw [List.filter_cons_of_neg (by simp [hcs])]
      conv_lhs => rw [factorReturnsLoop.eq_def]
      simp only []
      rw [if_pos hcs, ih]
    · rw [List.filter_cons_of_pos (by simp [hcs])]
      conv_lhs => rw [factorReturnsLoop.eq_def]
      simp only []
      rw [if_neg hcs, ih]
      by_cases hvp : validPairs (crossSection data a) = []
      · simp [hvp]
      · simp [hvp]

theorem length_filter_lt {α : Type} (p : α → Bool) (l : List α) (a : α)
    (ha : a ∈ l) (hpa : p a = false) : (l.filter p).length < l.length := by
  induction l with
  | nil => cases ha
  | cons b rest ih =>
    rcases List.mem_cons.mp ha with h | h
    · subst h
      rw [List.filter_cons_of_neg (by simp [hpa])]
      have := List.length_filter_le p rest
      simp only [List.length_cons]
      omega
    · have hlt := ih h
      by_cases hb : p b
      · rw [List.filter_cons_of_pos hb]
        simp only [List.length_cons]
        omega
      · rw [List.filter_cons_of_neg (by simp [hb])]
        simp only [List.length_cons]
        omega

theorem missing_date_regression_error {data : Panel} {idx : List ℕ} {d : ℕ}
    (hd : d ∈ idx) (hcs : crossSection data d = [])
    (rlmF : List (ℚ × ℚ) → ℚ) (weights : Option (List ℚ)) :
    calculate_factor_return_regression rlmF data idx "OLS" weights =
      .error "Length of values does not match length of index" := by
  have hlt : (idx.filter (fun x => crossSection data x ≠ [])).length < idx.length :=
    length_filter_lt _ idx d hd (by simp [hcs])
  unfold calculate_factor_return_regression
  rw [loop_ols_ok]
  simp only []
  rw [if_neg (by simp only [List.length_map]; exact Nat.ne_of_lt hlt)]

/-! ## C10 — missing rebalance date: `KeyError` vs `ValueError` -/

/-- C10 counterexample — the claim as stated is false on the code: rebalance
date `2` is absent from `panelOne`, the loop appends nothing for it, and the
final `pd.DataFrame({'factor_return': factor_returns},
index=rebalance_date_index)` then raises `ValueError` (1 value against 2
index entries) — the call raises instead of returning the reduced-index
output `[(1, 2)]`, so the date is not "silently omitted". -/
theorem missing_rebalance_date_counterexample :
    calculate_factor_return_regression rlm0 panelOne [1, 2] "OLS" none =
      .error "Length of values does not match length of index" ∧
    calculate_factor_return_regression rlm0 panelOne [1] "OLS" none =
      .ok [(1, 2)] := by
  constructor <;> with_unfolding_all rfl

/-- C10 amended — a rebalance date with no rows in the panel makes BOTH
entry points raise, with different exceptions at different places:
`calculate_ic_s` raises `KeyError` at the unguarded `xs` lookup (no series
is produced at all), while `calculate_factor_return_regression` catches
that `KeyError` and `continue`s, but then raises `ValueError` at the final
`DataFrame` construction because the collected returns list is shorter
than the rebalance index (shown on the `OLS` path, whose loop body raises
nothing else).  Neither function silently omits the date. -/
theorem missing_rebalance_date_divergence (data : Panel) (idx : List ℕ)
    (d : ℕ) (m : CorrMethod) (hd : d ∈ idx) (hcs : crossSection data d = []) :
    (∃ e, calculate_ic_s data idx m = .error e) ∧
    ∀ rlmF weights,
      calculate_factor_return_regression rlmF data idx "OLS" weights =
        .error "Length of values does not match length of index" :=
  ⟨calculate_ic_s_error_of hd hcs,
    fun rlmF weights => missing_date_regression_error hd hcs rlmF weights⟩

theorem missing_rebalance_date_divergence_witness :
    (∃ e, calculate_ic_s panelOne [1, 2] CorrMethod.spearman = .error e) ∧
    ∀ rlmF weights,
      calculate_factor_return_regression rlmF panelOne [1, 2] "OLS" weights =
        .error "Length of values does not match length of index" :=
  missing_rebalance_date_divergence panelOne [1, 2] 2 CorrMethod.spearman
    (by decide) (by decide)

/-! ## C4 — under-populated regression dates -/

theorem filterMap_pair_map_fst {β : Type} (idx : List ℕ) (g : ℕ → Option β) :
    (idx.filterMap (fun d => (g d).map (fun v => (d, v)))).map Prod.fst =
      idx.filter (fun d => (g d).isSome) := by
  induction idx with
  | nil => rfl
  | cons d rest ih =>
    simp only [List.filterMap_cons]
    cases hg : g d with
    | none => simpa [hg] using ih
    | some v => simpa [hg] using ih

theorem zip_map_filterMap {α β : Type} (idx : List α) (f : α → Option β) :
    (idx.zip (idx.map f)).filterMap (fun p => p.2.map (fun v => (p.1, v))) =
      idx.filterMap (fun d => (f d).map (fun v => (d, v))) := by
  induction idx with
  | nil => rfl
  | cons d rest ih =>
    cases hf : f d with
    | none => simp [List.zip_cons_cons, List.filterMap_cons, hf, ih]
    | some v => simp [List.zip_cons_cons, List.filterMap_cons, hf, ih]

/-- C4 counterexample — the claim as stated is false on the code: date 1 of
`panelOne` has exactly ONE valid observation (fewer than 2), yet the
single-loading path does not exclude it — `statsmodels` happily fits the
one-point regression and the date is kept with slope y/x = 4/2 = 2. -/
theorem single_path_one_obs_counterexample :
    (validPairs (crossSection panelOne 1)).length = 1 ∧
    calculate_factor_return_regression rlm0 panelOne [1] "OLS" none =
      .ok [(1, 2)] :=
  ⟨by decide, by with_unfolding_all rfl⟩

/-- C4 amended — provided every rebalance date of the index has at least one
row in the panel (a missing date instead makes the final `DataFrame`
construction raise `ValueError`, see C10), the single-loading path excludes
from its output exactly the dates with ZERO valid observations — a date
with exactly one valid observation is fitted and retained, with the pinv
slope `Σxy/Σx²` — while `FactorRegression._compute` keeps every date of
the index, recording dates with fewer than 2 valid observations as
explicit `NaN` entries. -/
theorem underpopulated_regression_dates
    (wlsF : List (ℚ × ℚ) → List ℚ → ℚ) (rlmF : List (ℚ × ℚ) → ℚ)
    (data : Panel) (idx : List ℕ) (weights : Option (List ℚ))
    (weightsW : Option (List (ℕ × List ℚ)))
    (rows : List (ℕ × List (Option ℚ) × List (Option ℚ)))
    (hpres : ∀ d ∈ idx, crossSection data d ≠ []) :
    calculate_factor_return_regression rlmF data idx "OLS" weights =
      .ok (idx.filterMap (fun d =>
        (if validPairs (crossSection data d) = [] then none
         else some (olsSlope (validPairs (crossSection data d)))).map
          (fun v => (d, v)))) ∧
    (idx.filterMap (fun d =>
        (if validPairs (crossSection data d) = [] then none
         else some (olsSlope (validPairs (crossSection data d)))).map
          (fun v => (d, v)))).map Prod.fst =
      idx.filter (fun d => decide (validPairs (crossSection data d) ≠ [])) ∧
    factorRegressionCompute wlsF rlmF "OLS" weightsW rows =
      .ok (rows.map (fun r =>
        if (rowPairs r.2.1 r.2.2).length < 2 then none
        else some (olsSlope (rowPairs r.2.1 r.2.2)))) := by
  refine ⟨?_, ?_, ?_⟩
  · have hfe : idx.filter (fun d => crossSection data d ≠ []) = idx :=
      List.filter_eq_self.mpr (fun d hd => by simp [hpres d hd])
    unfold calculate_factor_return_regression
    rw [loop_ols_ok, hfe]
    simp only []
    rw [if_pos (by rw [List.length_map])]
    rw [zip_map_filterMap]
  · rw [filterMap_pair_map_fst]
    refine List.filter_congr ?_
    intro d _
    by_cases hvp : validPairs (crossSection data d) = []
    · simp [hvp]
    · simp [hvp]
  · induction rows with
    | nil => rfl
    | cons r rest ih =>
      obtain ⟨d, x, y⟩ := r
      conv_lhs => rw [factorRegressionCompute.eq_def]
      simp only []
      rw [ih]
      by_cases hlen : (rowPairs x y).length < 2
      · simp [hlen]
      · simp [hlen]

theorem underpopulated_regression_dates_witness :
    calculate_factor_return_regression rlm0 panelOne [1] "OLS" none =
      .ok ([1].filterMap (fun d =>
        (if validPairs (crossSection panelOne d) = [] then none
         else some (olsSlope (validPairs (crossSection panelOne d)))).map
          (fun v => (d, v)))) ∧
    ([1].filterMap (fun d =>
        (if validPairs (crossSection panelOne d) = [] then none
         else some (olsSlope (validPairs (crossSection panelOne d)))).map
          (fun v => (d, v)))).map Prod.fst =
      [1].filter (fun d => decide (validPairs (crossSection panelOne d) ≠ [])) ∧
    factorRegressionCompute wls0 rlm0 "OLS" none [(1, [some 1], [some 2])] =
      .ok ([(1, [some 1], [some 2])].map (fun r =>
        if (rowPairs r.2.1 r.2.2).length < 2 then none
        else some (olsSlope (rowPairs r.2.1 r.2.2)))) :=
  underpopulated_regression_dates wls0 rlm0 panelOne [1] none none
    [(1, [some 1], [some 2])] (by decide)

/-! ## C5 — configuration validation -/

theorem loop_cons_badmethod {data : Panel} {d : ℕ}
    (hcs : crossSection data d ≠ []) (hvp : validPairs (crossSection data d) ≠ [])
    (rlmF : List (ℚ × ℚ) → ℚ) {method : String} {weights : Option (List ℚ)}
    (hbad : method = "WLS" ∨ (method ≠ "OLS" ∧ method ≠ "WLS" ∧ method ≠ "RLM"))
    (rest : List ℕ) :
    ∃ e, factorReturnsLoop rlmF data (d :: rest) method weights = .error e := by
  rcases hbad with hm | ⟨h1, h2, h3⟩
  · subst hm
    cases weights with
    | none =>
      refine ⟨"WLS method requires weights in kwargs", ?_⟩
      conv_lhs => rw [factorReturnsLoop.eq_def]
      simp only []
      rw [if_neg hcs]
      simp [hvp]
    | some w =>
      refine ⟨"TypeError: WLS got multiple values for keyword argument weights", ?_⟩
      conv_lhs => rw [factorReturnsLoop.eq_def]
      simp only []
      rw [if_neg hcs]
      simp [hvp]
  · refine ⟨"Unknown regression method: " ++ method, ?_⟩
    conv_lhs => rw [factorReturnsLoop.eq_def]
    simp only []
    rw [if_neg hcs]
    simp [hvp, h1, h2, h3]

theorem loop_badmethod_error {data : Panel} {idx : List ℕ}
    (rlmF : List (ℚ × ℚ) → ℚ) {method : String} {weights : Option (List ℚ)}
    (hbad : method = "WLS" ∨ (method ≠ "OLS" ∧ method ≠ "WLS" ∧ method ≠ "RLM"))
    (hex : ∃ d ∈ idx, crossSection data d ≠ [] ∧
      validPairs (crossSection data d) ≠ []) :
    ∃ e, factorReturnsLoop rlmF data idx method weights = .error e := by
  induction idx with
  | nil => simp at hex
  | cons a rest ih =>
    by_cases hvp : validPairs (crossSection data a) = []
    · have hex' : ∃ d ∈ rest, crossSection data d ≠ [] ∧
          validPairs (crossSection data d) ≠ [] := by
        obtain ⟨d, hd, h1, h2⟩ := hex
        rcases List.mem_cons.mp hd with h | h
        · exact absurd hvp (h ▸ h2)
        · exact ⟨d, h, h1, h2⟩
      obtain ⟨e, he⟩ := ih hex'
      by_cases hcs : crossSection data a = []
      · exact ⟨e, by rw [loop_cons_missing hcs, he]⟩
      · exact ⟨e, by rw [loop_cons_novalid hcs hvp, he]; rfl⟩
    · have hcs : crossSection data a ≠ [] := by
        intro h
        exact hvp (by simp [validPairs, h])
      exact loop_cons_badmethod hcs hvp rlmF hbad rest

theorem loop_all_novalid {data : Panel} {idx : List ℕ}
    (rlmF : List (ℚ × ℚ) → ℚ) (method : String) (weights : Option (List ℚ))
    (hall : ∀ d ∈ idx, crossSection data d ≠ [] ∧
      validPairs (crossSection data d) = []) :
    factorReturnsLoop rlmF data idx method weights =
      .ok (idx.map (fun _ => none)) := by
  induction idx with
  | nil => rfl
  | cons a rest ih =>
    obtain ⟨hcs, hvp⟩ := hall a (by simp)
    rw [loop_cons_novalid hcs hvp rlmF method weights rest,
      ih (fun x hx => hall x (by simp [hx]))]
    rfl

theorem zip_map_none_filterMap {α β : Type} (idx : List α) :
    (idx.zip (idx.map (fun _ => (none : Option β)))).filterMap
      (fun p => p.2.map (fun v => (p.1, v))) = [] := by
  induction idx with
  | nil => rfl
  | cons a rest ih => simpa [List.zip_cons_cons, List.filterMap_cons] using ih

theorem frc_cons_small {x y : List (Option ℚ)}
    (hlen : (rowPairs x y).length < 2)
    (wlsF : List (ℚ × ℚ) → List ℚ → ℚ) (rlmF : List (ℚ × ℚ) → ℚ)
    (method : String) (weights : Option (List (ℕ × List ℚ))) (d : ℕ)
    (rest : List (ℕ × List (Option ℚ) × List (Option ℚ))) :
    factorRegressionCompute wlsF rlmF method weights ((d, x, y) :: rest) =
      (factorRegressionCompute wlsF rlmF method weights rest).map
        (fun s => none :: s) := by
  conv_lhs => rw [factorRegressionCompute.eq_def]
  simp only []
  rw [if_pos hlen]
  cases factorRegressionCompute wlsF rlmF method weights rest <;> rfl

/-- C5 counterexample — the claim as stated is false on the code.  With a
rebalance date present in the panel but carrying no valid observation:
(a) an unknown method name `"FOO"` raises nothing — the call returns
normally (empty output); (b) `WLS` without weights raises nothing either;
(c) `FactorRegression._compute` with `WLS` and no weights silently fits the
unweighted model on a populated date (slope 1) instead of raising. -/
theorem config_validation_counterexample :
    calculate_factor_return_regression rlm0 panelNoValid [1] "FOO" none =
      .ok [] ∧
    calculate_factor_return_regression rlm0 panelNoValid [1] "WLS" none =
      .ok [] ∧
    factorRegressionCompute wls0 rlm0 "WLS" none
      [(1, [some 1, some 2], [some 1, some 2])] = .ok [some 1] := by
  refine ⟨?_, ?_, ?_⟩ <;> with_unfolding_all rfl

/-- C5 amended — method validation happens per date, inside the loop, after
the data checks: with an invalid configuration (unknown method name, or
`WLS` with or without weights — `ValueError` when weights are absent,
`TypeError` from the doubled `weights` keyword when they are supplied)
`calculate_factor_return_regression` raises only if some rebalance date
reaches the method dispatch (a nonempty cross-section with at least one
valid row), and returns normally with an empty result when every index
date is present in the panel but none has a valid row;
`FactorRegression._compute` raises for an unknown method only at the first
date with at least 2 valid observations, and never raises for `WLS`
without weights — it silently fits the unweighted model. -/
theorem config_validation_per_date
    (wlsF : List (ℚ × ℚ) → List ℚ → ℚ) (rlmF : List (ℚ × ℚ) → ℚ)
    (data : Panel) (idx : List ℕ) (method : String) (weights : Option (List ℚ))
    (weightsW : Option (List (ℕ × List ℚ)))
    (rows : List (ℕ × List (Option ℚ) × List (Option ℚ)))
    (hbad : method = "WLS" ∨
      (method ≠ "OLS" ∧ method ≠ "WLS" ∧ method ≠ "RLM")) :
    ((∃ d ∈ idx, crossSection data d ≠ [] ∧ validPairs (crossSection data d) ≠ []) →
      ∃ e, calculate_factor_return_regression rlmF data idx method weights =
        .error e) ∧
    ((∀ d ∈ idx, crossSection data d ≠ [] ∧
        validPairs (crossSection data d) = []) →
      calculate_factor_return_regression rlmF data idx method weights =
        .ok []) ∧
    ((method ≠ "OLS" ∧ method ≠ "WLS" ∧ method ≠ "RLM") →
      (∃ r ∈ rows, 2 ≤ (rowPairs r.2.1 r.2.2).length) →
      ∃ e, factorRegressionCompute wlsF rlmF method weightsW rows = .error e) ∧
    ∃ out, factorRegressionCompute wlsF rlmF "WLS" none rows = .ok out := by
  refine ⟨?_, ?_, ?_, ?_⟩
  · intro hex
    obtain ⟨e, he⟩ := loop_badmethod_error rlmF hbad hex
    refine ⟨e, ?_⟩
    unfold calculate_factor_return_regression
    rw [he]
  · intro hall
    unfold calculate_factor_return_regression
    rw [loop_all_novalid rlmF method weights hall]
    simp only []
    rw [if_pos (by rw [List.length_map])]
    rw [zip_map_none_filterMap]
  · intro ⟨h1, h2, h3⟩ hex
    induction rows with
    | nil => simp at hex
    | cons r rest ih =>
      obtain ⟨d, x, y⟩ := r
      by_cases hlen : (rowPairs x y).length < 2
      · have hex' : ∃ r ∈ rest, 2 ≤ (rowPairs r.2.1 r.2.2).length := by
          obtain ⟨r, hr, hge⟩ := hex
          rcases List.mem_cons.mp hr with h | h
          · subst h; simp only [] at hge; omega
          · exact ⟨r, h, hge⟩
        obtain ⟨e, he⟩ := ih hex'
        exact ⟨e, by rw [frc_cons_small hlen, he]; rfl⟩
      · refine ⟨"Unknown regression_method: " ++ method, ?_⟩
        conv_lhs => rw [factorRegressionCompute.eq_def]
        simp only []
        rw [if_neg hlen]
        simp [h1, h2, h3]
  · induction rows with
    | nil => exact ⟨[], rfl⟩
    | cons r rest ih =>
      obtain ⟨d, x, y⟩ := r
      obtain ⟨out, hout⟩ := ih
      by_cases hlen : (rowPairs x y).length < 2
      · exact ⟨none :: out, by rw [frc_cons_small hlen, hout]; rfl⟩
      · refine ⟨some (olsSlope (rowPairs x y)) :: out, ?_⟩
        conv_lhs => rw [factorRegressionCompute.eq_def]
        simp only []
        rw [if_neg hlen, hout]
        simp

theorem config_validation_per_date_witness :
    ((∃ d ∈ [1], crossSection panelNoValid d ≠ [] ∧
        validPairs (crossSection panelNoValid d) ≠ []) →
      ∃ e, calculate_factor_return_regression rlm0 panelNoValid [1] "FOO" none =
        .error e) ∧
    ((∀ d ∈ [1], crossSection panelNoValid d ≠ [] ∧
        validPairs (crossSection panelNoValid d) = []) →
      calculate_factor_return_regression rlm0 panelNoValid [1] "FOO" none =
        .ok []) ∧
    (("FOO" ≠ "OLS" ∧ "FOO" ≠ "WLS" ∧ "FOO" ≠ "RLM") →
      (∃ r ∈ [((1 : ℕ), [some (1 : ℚ), some 2], [some (1 : ℚ), some 2])],
        2 ≤ (rowPairs r.2.1 r.2.2).length) →
      ∃ e, factorRegressionCompute wls0 rlm0 "FOO" none
        [(1, [some 1, some 2], [some 1, some 2])] = .error e) ∧
    ∃ out, factorRegressionCompute wls0 rlm0 "WLS" none
      [(1, [some 1, some 2], [some 1, some 2])] = .ok out :=
  config_validation_per_date wls0 rlm0 panelNoValid [1] "FOO" none none
    [(1, [some 1, some 2], [some 1, some 2])] (Or.inr (by decide))

/-! ## C7 — ICIR degenerate input -/

/-- C7 counterexample — the claim as stated is false on the code: on
zero-variance IC inputs `Result.spearman_icir` raises `ZeroDivisionError`
while `_calculate_sort_ics` silently divides by the zero std and produces
`+inf` — two different conventions, one of them an infinite value. -/
theorem icir_inconsistency_counterexample :
    spearman_icir [1/2, 1/2] = .raiseZeroDiv ∧
    sortIcir [some (1/2), some (1/2)] [some (1/2), some (1/2)] = .posInf := by
  constructor <;> with_unfolding_all rfl

/-- C7 amended — the two ICIR entry points are inconsistent: whenever the
sample variance of the ICs is exactly zero, `Result.spearman_icir` raises
`ZeroDivisionError`, whereas `_calculate_sort_ics` performs an unchecked
float division and silently produces `+inf` whenever its column stds are
zero and the mean IC is positive. -/
theorem icir_degenerate_behavior (ics : List ℚ) (p s : List (Option ℚ)) (m : ℚ)
    (hvar : sampleVar ics = some 0)
    (hp : colVar p = some 0) (hs : colVar s = some 0)
    (hm : pandasMean [colMean p, colMean s] = some m) (hpos : 0 < m) :
    spearman_icir ics = .raiseZeroDiv ∧ sortIcir p s = .posInf := by
  constructor
  · unfold spearman_icir
    rw [hvar]
    simp
  · unfold sortIcir
    rw [hp, hs, hm]
    simp [hpos]

theorem icir_degenerate_behavior_witness :
    spearman_icir [1/2, 1/2] = IcirOutcome.raiseZeroDiv ∧
    sortIcir [some (1/2), some (1/2)] [some (1/2), some (1/2)] =
      FloatClass.posInf :=
  icir_degenerate_behavior [1/2, 1/2] [some (1/2), some (1/2)]
    [some (1/2), some (1/2)] (1/2) (by with_unfolding_all rfl)
    (by with_unfolding_all rfl) (by with_unfolding_all rfl)
    (by with_unfolding_all rfl) (by with_unfolding_all decide)

/-! ## C9 — `ols_alpha_tstat` degeneracy handling -/

/-- C9 counterexample — the claim as stated is false on the code: with
`y = [1, NaN, 2]` (two valid observations, fewer than 3) and a plain
array `x = [1, 2, 3]` (default `RangeIndex`), the positional alignment
`pd.Series(xv.values, index=yv.index)` RAISES `ValueError` instead of
returning the NaN-filled result. -/
theorem ols_alpha_tstat_raise_counterexample :
    ols_alpha_tstat fit0 [some 1, none, some 2]
      (XArg.rangeX [some 1, some 2, some 3]) =
      .error "Length of values does not match length of index" ∧
    (dropnaIdx [some 1, none, some 2]).length < 3 := by
  constructor
  · with_unfolding_all rfl
  · decide

/-- C9 amended — PROVIDED the positional-alignment precondition holds (`x`
absent, carrying an explicit index, or of the same length as the
NaN-dropped `y`), `ols_alpha_tstat` never raises: it returns the NaN-filled
result carrying the count of valid paired observations when that count is
below 3, and otherwise the intercept coefficient, t-statistic, p-value and
r-squared of the fitted model; an `x` with a default positional index of
any other length makes the alignment raise `ValueError` instead (see the
counterexample). -/
theorem ols_alpha_tstat_spec (fit : List (ℚ × Option ℚ) → FitQ)
    (y : List (Option ℚ)) (x : XArg)
    (hx : ∀ xs, x = XArg.rangeX xs → xs.length = (dropnaIdx y).length) :
    ∃ rows, alignedYX y x = .ok rows ∧
      ols_alpha_tstat fit y x =
        .ok (if (validYX x rows).length < 3
          then ⟨none, none, none, (validYX x rows).length, none⟩
          else ⟨some (fit (validYX x rows)).param0, some (fit (validYX x rows)).tval0,
            some (fit (validYX x rows)).pval0, (validYX x rows).length,
            some (fit (validYX x rows)).rsq⟩) := by
  have hal : ∃ rows, alignedYX y x = .ok rows := by
    cases x with
    | noX => exact ⟨_, rfl⟩
    | rangeX xs =>
      refine ⟨(((dropnaIdx y).zip xs).map (fun p => (p.1.2, p.2))), ?_⟩
      unfold alignedYX
      simp only []
      rw [if_pos (hx xs rfl)]
    | labeledX xs =>
      unfold alignedYX
      simp only []
      by_cases h : xs.length = (dropnaIdx y).length
      · rw [if_pos h]; exact ⟨_, rfl⟩
      · rw [if_neg h]; exact ⟨_, rfl⟩
  obtain ⟨rows, hrows⟩ := hal
  refine ⟨rows, hrows, ?_⟩
  unfold ols_alpha_tstat
  rw [hrows]
  simp only []
  by_cases hlen : (validYX x rows).length < 3
  · rw [if_pos hlen, if_pos hlen]
  · rw [if_neg hlen, if_neg hlen]

theorem ols_alpha_tstat_spec_witness :
    ∃ rows, alignedYX [some 1, some 2, none] XArg.noX = .ok rows ∧
      ols_alpha_tstat fit0 [some 1, some 2, none] XArg.noX =
        .ok (if (validYX XArg.noX rows).length < 3
          then ⟨none, none, none, (validYX XArg.noX rows).length, none⟩
          else ⟨some (fit0 (validYX XArg.noX rows)).param0,
            some (fit0 (validYX XArg.noX rows)).tval0,
            some (fit0 (validYX XArg.noX rows)).pval0,
            (validYX XArg.noX rows).length,
            some (fit0 (validYX XArg.noX rows)).rsq⟩) :=
  ols_alpha_tstat_spec fit0 [some 1, some 2, none] XArg.noX
    (fun xs h => XArg.noConfusion h)

/-! ## C8 — no in-place mutation of the caller's panel -/

theorem getColList_setColList_ne {l : List (String × List (Option ℚ))}
    {c c' : String} {v : List (Option ℚ)} (h : c' ≠ c) :
    getColList (setColList l c v) c' = getColList l c' := by
  induction l with
  | nil =>
    unfold setColList getColList
    rw [if_neg (fun hh : c = c' => h hh.symm)]
    rfl
  | cons p t ih =>
    unfold setColList
    by_cases hp : p.1 = c
    · rw [if_pos hp]
      unfold getColList
      rw [if_neg (fun hh : c = c' => h hh.symm),
        if_neg (fun hh : p.1 = c' => h (hp.symm.trans hh).symm)]
    · rw [if_neg hp]
      unfold getColList
      by_cases hp' : p.1 = c'
      · rw [if_pos hp', if_pos hp']
      · rw [if_neg hp', if_neg hp']
        exact ih

theorem getCol_setCol_ne {f : Frame} {c c' : String} {v : List (Option ℚ)}
    (h : c' ≠ c) : getCol (setCol f c v) c' = getCol f c' :=
  getColList_setColList_ne h

/-- Invariant carried through the per-field loop of `standardize`: index
labels untouched and all columns outside the written set untouched. -/
theorem standardize_fold_preserves (data : Frame) (outs : List String)
    (step : Frame → String × String → Except String Frame)
    (hstep : ∀ fr p r, p.2 ∈ outs → step fr p = .ok r →
      r.dates = fr.dates ∧ r.assets = fr.assets ∧
        ∀ c, ¬ c ∈ outs → getCol r c = getCol fr c) :
    ∀ (ps : List (String × String)) (fr r : Frame),
      (∀ p ∈ ps, p.2 ∈ outs) →
      List.foldlM step fr ps = .ok r →
      (fr.dates = data.dates ∧ fr.assets = data.assets ∧
        ∀ c, ¬ c ∈ outs → getCol fr c = getCol data c) →
      r.dates = data.dates ∧ r.assets = data.assets ∧
        ∀ c, ¬ c ∈ outs → getCol r c = getCol data c := by
  intro ps
  induction ps with
  | nil =>
    intro fr r _ hfold hfr
    simp only [List.foldlM_nil] at hfold
    cases hfold
    exact hfr
  | cons p t ih =>
    intro fr r hps hfold hfr
    rw [List.foldlM_cons] at hfold
    cases hs : step fr p with
    | error e => rw [hs] at hfold; exact Except.noConfusion hfold
    | ok fr' =>
      rw [hs] at hfold
      have hfold' : List.foldlM step fr' t = .ok r := hfold
      obtain ⟨h1, h2, h3⟩ := hstep fr p fr' (hps p (by simp)) hs
      exact ih fr' r (fun q hq => hps q (by simp [hq])) hfold'
        ⟨h1.trans hfr.1, h2.trans hfr.2.1,
          fun c hc => (h3 c hc).trans (hfr.2.2 c hc)⟩

/-- C8 — neither `standardize` nor `lag_by_asset` mutates the caller's
panel: both copy before writing, so the caller-visible state of the
argument after the call equals its value before the call; moreover both
return a new frame that agrees with the input on the index labels and on
every column they were not asked to write. -/
theorem no_inplace_mutation (data : Frame) (data_fields : List String)
    (method : List (Option ℚ) → List (Option ℚ)) (cross_section : Bool)
    (suffix : Option String) (panel : Frame) (columns : List String)
    (periods : ℤ) :
    (standardize data data_fields method cross_section suffix).1 = data ∧
    (lag_by_asset panel columns periods).1 = panel ∧
    (∀ r, (standardize data data_fields method cross_section suffix).2 = .ok r →
      r.dates = data.dates ∧ r.assets = data.assets ∧
        ∀ c, ¬ c ∈ outFieldNames data_fields suffix → getCol r c = getCol data c) ∧
    (∀ r, (lag_by_asset panel columns periods).2 = .ok r →
      r.dates = panel.dates ∧ r.assets = panel.assets ∧
        ∀ c, ¬ c ∈ columns → getCol r c = getCol panel c) := by
  refine ⟨rfl, rfl, ?_, ?_⟩
  · intro r hr
    have hstep : ∀ fr (p : String × String) r', p.2 ∈ outFieldNames data_fields suffix →
        (fun fr (p : String × String) =>
          match getCol fr p.1 with
          | none => Except.error "KeyError"
          | some v => Except.ok (setCol fr p.2 (groupTransform
              (if cross_section then fr.dates else fr.assets) v method))) fr p = .ok r' →
        r'.dates = fr.dates ∧ r'.assets = fr.assets ∧
          ∀ c, ¬ c ∈ outFieldNames data_fields suffix → getCol r' c = getCol fr c := by
      intro fr p r' hmem hs
      simp only [] at hs
      cases hg : getCol fr p.1 with
      | none => rw [hg] at hs; exact absurd hs (by simp)
      | some v =>
        rw [hg] at hs
        simp only [Except.ok.injEq] at hs
        subst hs
        refine ⟨rfl, rfl, fun c hc => ?_⟩
        exact getCol_setCol_ne (fun hh => hc (by rw [hh]; exact hmem))
    exact standardize_fold_preserves data (outFieldNames data_fields suffix) _ hstep
      (data_fields.zip (outFieldNames data_fields suffix))
      data r (fun p hp => (List.of_mem_zip hp).2) hr
      ⟨rfl, rfl, fun c _ => rfl⟩
  · intro r hr
    unfold lag_by_asset at hr
    by_cases hm : columns.any (fun c => (getCol panel c).isNone)
    · rw [if_pos hm] at hr; exact absurd hr (by simp)
    · rw [if_neg hm] at hr
      simp only [Except.ok.injEq] at hr
      subst hr
      clear hm
      have key : ∀ (cs : List String) (fr : Frame),
          (fr.dates = panel.dates ∧ fr.assets = panel.assets ∧
            ∀ c, ¬ c ∈ columns → getCol fr c = getCol panel c) →
          (∀ c ∈ cs, c ∈ columns) →
          ((cs.foldl (fun fr c =>
            match getCol fr c with
            | none => fr
            | some v => setCol fr c (shiftGroup fr.assets v periods)) fr).dates = panel.dates ∧
          (cs.foldl (fun fr c =>
            match getCol fr c with
            | none => fr
            | some v => setCol fr c (shiftGroup fr.assets v periods)) fr).assets = panel.assets ∧
          ∀ c, ¬ c ∈ columns → getCol (cs.foldl (fun fr c =>
            match getCol fr c with
            | none => fr
            | some v => setCol fr c (shiftGroup fr.assets v periods)) fr) c = getCol panel c) := by
        intro cs
        induction cs with
        | nil => intro fr hfr _; exact hfr
        | cons a t ih =>
          intro fr hfr hsub
          rw [List.foldl_cons]
          refine ih _ ?_ (fun c hc => hsub c (List.mem_cons_of_mem a hc))
          cases hg : getCol fr a with
          | none => exact hfr
          | some v =>
            refine ⟨hfr.1, hfr.2.1, fun c hc => ?_⟩
            have hne : c ≠ a := fun hh => hc (hh ▸ hsub a (by simp))
            rw [getCol_setCol_ne hne]
            exact hfr.2.2 c hc
      exact key columns panel ⟨rfl, rfl, fun c _ => rfl⟩ (fun c hc => hc)

theorem no_inplace_mutation_witness :
    (standardize ⟨[1, 1], [0, 1], [("f", [some 1, some 2])]⟩ ["f"] (fun l => l)
      true none).1 = ⟨[1, 1], [0, 1], [("f", [some 1, some 2])]⟩ ∧
    (lag_by_asset ⟨[1, 1], [0, 1], [("f", [some 1, some 2])]⟩ ["f"] 1).1 =
      ⟨[1, 1], [0, 1], [("f", [some 1, some 2])]⟩ ∧
    (∀ r, (standardize ⟨[1, 1], [0, 1], [("f", [some 1, some 2])]⟩ ["f"]
        (fun l => l) true none).2 = .ok r →
      r.dates = Frame.dates ⟨[1, 1], [0, 1], [("f", [some 1, some 2])]⟩ ∧
      r.assets = Frame.assets ⟨[1, 1], [0, 1], [("f", [some 1, some 2])]⟩ ∧
        ∀ c, ¬ c ∈ outFieldNames ["f"] none →
          getCol r c = getCol ⟨[1, 1], [0, 1], [("f", [some 1, some 2])]⟩ c) ∧
    (∀ r, (lag_by_asset ⟨[1, 1], [0, 1], [("f", [some 1, some 2])]⟩ ["f"] 1).2 = .ok r →
      r.dates = Frame.dates ⟨[1, 1], [0, 1], [("f", [some 1, some 2])]⟩ ∧
      r.assets = Frame.assets ⟨[1, 1], [0, 1], [("f", [some 1, some 2])]⟩ ∧
        ∀ c, ¬ c ∈ ["f"] →
          getCol r c = getCol ⟨[1, 1], [0, 1], [("f", [some 1, some 2])]⟩ c) :=
  no_inplace_mutation ⟨[1, 1], [0, 1], [("f", [some 1, some 2])]⟩ ["f"]
    (fun l => l) true none ⟨[1, 1], [0, 1], [("f", [some 1, some 2])]⟩ ["f"] 1

/-! ## Interpolation lemmas for `pd.qcut` (toward C2) -/

theorem sorted_getD_lt {s : List ℚ} (hs : List.Pairwise (· < ·) s) {i j : ℕ}
    (hij : i < j) (hj : j < s.length) : s.getD i 0 < s.getD j 0 := by
  have hi : i < s.length := lt_trans hij hj
  rw [List.getD_eq_getElem s 0 hi, List.getD_eq_getElem s 0 hj]
  exact List.pairwise_iff_getElem.mp hs i j hi hj hij

theorem sorted_getD_le {s : List ℚ} (hs : List.Pairwise (· < ·) s) {i j : ℕ}
    (hij : i ≤ j) (hj : j < s.length) : s.getD i 0 ≤ s.getD j 0 := by
  rcases Nat.lt_or_ge i j with h | h
  · exact le_of_lt (sorted_getD_lt hs h hj)
  · have : i = j := le_antisymm hij h
    rw [this]

theorem floor_toNat_le {h : ℚ} (h0 : 0 ≤ h) : ((Int.floor h).toNat : ℚ) ≤ h := by
  have hf : (0 : ℤ) ≤ ⌊h⌋ := Int.floor_nonneg.mpr h0
  have heq : ((⌊h⌋.toNat : ℕ) : ℚ) = ((⌊h⌋ : ℤ) : ℚ) := by
    rw [← Int.cast_natCast, Int.toNat_of_nonneg hf]
  rw [heq]
  exact Int.floor_le h

theorem lt_floor_toNat_add_one {h : ℚ} (h0 : 0 ≤ h) :
    h < ((Int.floor h).toNat : ℚ) + 1 := by
  have hf : (0 : ℤ) ≤ ⌊h⌋ := Int.floor_nonneg.mpr h0
  have heq : ((⌊h⌋.toNat : ℕ) : ℚ) = ((⌊h⌋ : ℤ) : ℚ) := by
    rw [← Int.cast_natCast, Int.toNat_of_nonneg hf]
  rw [heq]
  exact Int.lt_floor_add_one h

theorem floor_toNat_lt_length {s : List ℚ} {h : ℚ} (hne : s ≠ [])
    (hn : h ≤ (s.length : ℚ) - 1) : (Int.floor h).toNat < s.length := by
  have hlen : 1 ≤ s.length := List.length_pos.mpr hne
  have hfle : ⌊h⌋ ≤ (s.length : ℤ) - 1 := by
    have hh : h ≤ (((s.length : ℤ) - 1 : ℤ) : ℚ) := by push_cast; linarith
    calc ⌊h⌋ ≤ ⌊(((s.length : ℤ) - 1 : ℤ) : ℚ)⌋ := Int.floor_le_floor hh
      _ = (s.length : ℤ) - 1 := Int.floor_intCast _
  omega

theorem interp_natCast {s : List ℚ} {i : ℕ} (hi : i < s.length) :
    interpSorted s (i : ℚ) = s.getD i 0 := by
  unfold interpSorted
  rw [Int.floor_natCast]
  simp

theorem getD_floor_le_interp {s : List ℚ} (hs : List.Pairwise (· < ·) s) {h : ℚ}
    (h0 : 0 ≤ h) (hn : h ≤ (s.length : ℚ) - 1) (hne : s ≠ []) :
    s.getD (Int.floor h).toNat 0 ≤ interpSorted s h := by
  unfold interpSorted
  have hkh : ((Int.floor h).toNat : ℚ) ≤ h := floor_toNat_le h0
  have hkn : (Int.floor h).toNat < s.length := floor_toNat_lt_length hne hn
  have hb : s.getD (Int.floor h).toNat 0 ≤
      s.getD ((Int.floor h).toNat + 1) (s.getD (Int.floor h).toNat 0) := by
    by_cases hk1 : (Int.floor h).toNat + 1 < s.length
    · rw [List.getD_eq_getElem _ _ hk1, List.getD_eq_getElem _ _ hkn]
      exact le_of_lt (List.pairwise_iff_getElem.mp hs _ _ hkn hk1 (Nat.lt_succ_self _))
    · rw [List.getD_eq_default _ _
        (show s.length ≤ (Int.floor h).toNat + 1 by omega)]
  nlinarith [hb, hkh]

theorem interp_lt_getD_of_lt {s : List ℚ} (hs : List.Pairwise (· < ·) s) {h : ℚ}
    (h0 : 0 ≤ h) {i : ℕ} (hi : i < s.length) (hlt : h < (i : ℚ)) :
    interpSorted s h < s.getD i 0 := by
  unfold interpSorted
  have hk : (Int.floor h).toNat < i := by
    have hf : ⌊h⌋ < (i : ℤ) := Int.floor_lt.mpr (by exact_mod_cast hlt)
    have hf0 : (0 : ℤ) ≤ ⌊h⌋ := Int.floor_nonneg.mpr h0
    omega
  have hk1n : (Int.floor h).toNat + 1 < s.length := by omega
  have hab : s.getD (Int.floor h).toNat 0 < s.getD ((Int.floor h).toNat + 1) 0 :=
    sorted_getD_lt hs (Nat.lt_succ_self _) hk1n
  have hbd : s.getD ((Int.floor h).toNat + 1) (s.getD (Int.floor h).toNat 0) =
      s.getD ((Int.floor h).toNat + 1) 0 := by
    rw [List.getD_eq_getElem _ _ hk1n, List.getD_eq_getElem _ _ hk1n]
  have hbi : s.getD ((Int.floor h).toNat + 1) 0 ≤ s.getD i 0 :=
    sorted_getD_le hs (by omega) hi
  have ht1 : h - ((Int.floor h).toNat : ℚ) < 1 := by
    have := lt_floor_toNat_add_one h0
    linarith
  have ht0 : 0 ≤ h - ((Int.floor h).toNat : ℚ) := by
    have := floor_toNat_le h0
    linarith
  rw [hbd]
  nlinarith [hab, hbi, ht1, ht0]

theorem getD_le_interp_of_le {s : List ℚ} (hs : List.Pairwise (· < ·) s) {h : ℚ}
    (h0 : 0 ≤ h) (hn : h ≤ (s.length : ℚ) - 1) (hne : s ≠ []) {i : ℕ}
    (hle : (i : ℚ) ≤ h) : s.getD i 0 ≤ interpSorted s h := by
  have hik : i ≤ (Int.floor h).toNat := by
    have hf : (i : ℤ) ≤ ⌊h⌋ := Int.le_floor.mpr (by exact_mod_cast hle)
    omega
  have hkn : (Int.floor h).toNat < s.length := floor_toNat_lt_length hne hn
  exact le_trans (sorted_getD_le hs hik hkn) (getD_floor_le_interp hs h0 hn hne)

theorem interp_lt_getD_iff {s : List ℚ} (hs : List.Pairwise (· < ·) s) {h : ℚ}
    (h0 : 0 ≤ h) (hn : h ≤ (s.length : ℚ) - 1) (hne : s ≠ []) {i : ℕ}
    (hi : i < s.length) :
    interpSorted s h < s.getD i 0 ↔ h < (i : ℚ) := by
  constructor
  · intro hlt
    by_contra hge
    push_neg at hge
    exact absurd hlt (not_lt.mpr (getD_le_interp_of_le hs h0 hn hne hge))
  · exact interp_lt_getD_of_lt hs h0 hi

theorem interp_strictMono {s : List ℚ} (hs : List.Pairwise (· < ·) s)
    {h1 h2 : ℚ} (h0 : 0 ≤ h1) (h12 : h1 < h2) (hn : h2 ≤ (s.length : ℚ) - 1)
    (hne : s ≠ []) : interpSorted s h1 < interpSorted s h2 := by
  have h20 : 0 ≤ h2 := le_trans h0 (le_of_lt h12)
  have h1n : h1 ≤ (s.length : ℚ) - 1 := le_trans (le_of_lt h12) hn
  have hk12 : (Int.floor h1).toNat ≤ (Int.floor h2).toNat := by
    have := Int.floor_le_floor (le_of_lt h12)
    omega
  rcases Nat.lt_or_ge (Int.floor h1).toNat (Int.floor h2).toNat with hlt | hge
  · have hk2n : (Int.floor h2).toNat < s.length := floor_toNat_lt_length hne hn
    have hstep : interpSorted s h1 < s.getD ((Int.floor h1).toNat + 1) 0 := by
      refine interp_lt_getD_of_lt hs h0 (by omega) ?_
      exact_mod_cast lt_floor_toNat_add_one h0
    calc interpSorted s h1 < s.getD ((Int.floor h1).toNat + 1) 0 := hstep
      _ ≤ s.getD (Int.floor h2).toNat 0 := sorted_getD_le hs (by omega) hk2n
      _ ≤ interpSorted s h2 := getD_le_interp_of_le hs h20 hn hne (floor_toNat_le h20)
  · have hkeq : (Int.floor h1).toNat = (Int.floor h2).toNat := le_antisymm hk12 hge
    have hkn : (Int.floor h1).toNat < s.length := floor_toNat_lt_length hne h1n
    by_cases hk1 : (Int.floor h1).toNat + 1 < s.length
    · unfold interpSorted
      rw [← hkeq]
      have hab : s.getD (Int.floor h1).toNat 0 <
          s.getD ((Int.floor h1).toNat + 1) 0 :=
        sorted_getD_lt hs (Nat.lt_succ_self _) hk1
      have hbd : s.getD ((Int.floor h1).toNat + 1) (s.getD (Int.floor h1).toNat 0) =
          s.getD ((Int.floor h1).toNat + 1) 0 := by
        rw [List.getD_eq_getElem _ _ hk1, List.getD_eq_getElem _ _ hk1]
      rw [hbd]
      nlinarith [hab, h12]
    · exfalso
      have hkl : (Int.floor h1).toNat = s.length - 1 := by omega
      have hfl : ((Int.floor h1).toNat : ℚ) ≤ h1 := floor_toNat_le h0
      have hlen : 1 ≤ s.length := List.length_pos.mpr hne
      have hcast : (((s.length - 1 : ℕ)) : ℚ) = (s.length : ℚ) - 1 := by
        push_cast [Nat.cast_sub hlen]
        ring
      have hge1 : ((s.length : ℚ) - 1) ≤ h1 := by
        rw [← hcast, ← hkl]
        exact hfl
      linarith

/-! ## Edge and label lemmas for `pd.qcut` -/

theorem quantilePos_nonneg {n q j : ℕ} (hn : 1 ≤ n) : 0 ≤ quantilePos n q j := by
  unfold quantilePos
  have h1 : (1 : ℚ) ≤ (n : ℚ) := by exact_mod_cast hn
  have hj : (0 : ℚ) ≤ (j : ℚ) := by positivity
  have hq : (0 : ℚ) ≤ (q : ℚ) := by positivity
  exact div_nonneg (mul_nonneg hj (by linarith)) hq

theorem quantilePos_le {n q j : ℕ} (hn : 1 ≤ n) (hq : 1 ≤ q) (hj : j ≤ q) :
    quantilePos n q j ≤ (n : ℚ) - 1 := by
  unfold quantilePos
  have hq0 : (0 : ℚ) < (q : ℚ) := by exact_mod_cast hq
  rw [div_le_iff hq0]
  have h1 : (1 : ℚ) ≤ (n : ℚ) := by exact_mod_cast hn
  have hjq : (j : ℚ) ≤ (q : ℚ) := by exact_mod_cast hj
  nlinarith

theorem quantilePos_strictMono {n q j j' : ℕ} (hn : 2 ≤ n) (hq : 1 ≤ q)
    (hjj : j < j') : quantilePos n q j < quantilePos n q j' := by
  unfold quantilePos
  have hq0 : (0 : ℚ) < (q : ℚ) := by exact_mod_cast hq
  have h2 : (2 : ℚ) ≤ (n : ℚ) := by exact_mod_cast hn
  have hjj' : (j : ℚ) < (j' : ℚ) := by exact_mod_cast hjj
  rw [div_lt_div_iff hq0 hq0]
  exact mul_lt_mul_of_pos_right
    (mul_lt_mul_of_pos_right hjj' (by linarith)) hq0

theorem quantilePos_lt_natCast_iff {n q j i : ℕ} (hn : 1 ≤ n) (hq : 1 ≤ q) :
    quantilePos n q j < (i : ℚ) ↔ j * (n - 1) < i * q := by
  unfold quantilePos
  have hq0 : (0 : ℚ) < (q : ℚ) := by exact_mod_cast hq
  rw [div_lt_iff hq0]
  have hcast : ((n : ℚ) - 1) = ((n - 1 : ℕ) : ℚ) := by
    push_cast [Nat.cast_sub hn]
    ring
  rw [hcast]
  exact_mod_cast Iff.rfl

theorem strictAsc_of_chain : ∀ {l : List ℚ}, List.Chain' (· < ·) l → strictAsc l = true
  | [], _ => rfl
  | [_], _ => rfl
  | a :: b :: t, h => by
    rw [List.chain'_cons] at h
    unfold strictAsc
    rw [Bool.and_eq_true, decide_eq_true_eq]
    exact ⟨h.1, strictAsc_of_chain h.2⟩

theorem strictAsc_qEdges {s : List ℚ} (hs : List.Pairwise (· < ·) s) {q : ℕ}
    (hq : 2 ≤ q) (hn : q ≤ s.length) : strictAsc (qEdges s q) = true := by
  have hn2 : 2 ≤ s.length := le_trans hq hn
  have hne : s ≠ [] := by
    intro h
    rw [h] at hn2
    simp at hn2
  apply strictAsc_of_chain
  unfold qEdges
  rw [List.chain'_map]
  refine (List.chain'_range_succ _ q).mpr ?_
  intro m hm
  refine interp_strictMono hs (quantilePos_nonneg (by omega)) ?_ ?_ hne
  · exact quantilePos_strictMono hn2 (by omega) (Nat.lt_succ_self m)
  · exact quantilePos_le (by omega) (by omega) (by omega)

theorem qcutLabel_getD {s : List ℚ} (hs : List.Pairwise (· < ·) s) {q : ℕ}
    (hq : 2 ≤ q) (hn : q ≤ s.length) {i : ℕ} (hi : i < s.length) :
    qcutLabel s q (s.getD i 0) =
      (List.range (q - 1)).countP (fun j => decide ((j + 1) * (s.length - 1) < i * q)) := by
  have hn2 : 2 ≤ s.length := le_trans hq hn
  have hne : s ≠ [] := by
    intro h
    rw [h] at hn2
    simp at hn2
  unfold qcutLabel interiorEdges
  rw [List.countP_map]
  refine List.countP_congr ?_
  intro j hj
  simp only [Function.comp_apply, decide_eq_true_eq]
  rw [interp_lt_getD_iff hs (quantilePos_nonneg (by omega))
    (quantilePos_le (by omega) (by omega) (by
      have := List.mem_range.mp hj
      omega)) hne hi]
  exact quantilePos_lt_natCast_iff (by omega) (by omega)

theorem countP_range_lt (m t : ℕ) :
    (List.range m).countP (fun a => decide (a < t)) = min t m := by
  induction m with
  | zero => simp
  | succ m ih =>
    rw [List.range_succ, List.countP_append, ih]
    by_cases hm : m < t
    · simp [List.countP_cons, hm]
      omega
    · simp [List.countP_cons, hm]
      omega

theorem qcut_label_surj {s : List ℚ} (hs : List.Pairwise (· < ·) s) {q : ℕ}
    (hq : 2 ≤ q) (hn : q ≤ s.length) :
    ∀ t, t < q → ∃ i, i < s.length ∧ qcutLabel s q (s.getD i 0) = t := by
  intro t ht
  have hn2 : 2 ≤ s.length := le_trans hq hn
  rcases Nat.eq_zero_or_pos t with ht0 | htpos
  · subst ht0
    refine ⟨0, by omega, ?_⟩
    rw [qcutLabel_getD hs hq hn (by omega)]
    rw [List.countP_eq_zero]
    intro j _
    simp only [decide_eq_true_eq]
    omega
  · rcases Nat.lt_or_ge t (q - 1) with htmid | httop
    · -- 1 ≤ t ≤ q - 2 : witness i = (t+1)*(n-1)/q
      have hq0 : 0 < q := by omega
      have hn1 : 0 < s.length - 1 := by omega
      have hi1 : ((t + 1) * (s.length - 1)) / q * q ≤ (t + 1) * (s.length - 1) :=
        Nat.div_mul_le_self _ _
      have hdm := Nat.div_add_mod ((t + 1) * (s.length - 1)) q
      have hexp : (t + 1) * (s.length - 1) = t * (s.length - 1) + (s.length - 1) :=
        Nat.succ_mul t (s.length - 1)
      have hr : ((t + 1) * (s.length - 1)) % q < s.length - 1 := by
        rcases Nat.lt_or_ge (s.length - 1) q with hlt | hge
        · -- forces s.length = q
          have hnq : s.length = q := by omega
          obtain ⟨u, hu⟩ : ∃ u, q = t + 1 + u := ⟨q - (t + 1), by omega⟩
          have hkey : (t + 1) * (s.length - 1) = q * t + u := by
            have h1 : s.length - 1 = t + u := by omega
            rw [h1, hu]
            ring
          rw [hkey, Nat.mul_add_mod, Nat.mod_eq_of_lt (by omega)]
          omega
        · exact lt_of_lt_of_le (Nat.mod_lt _ hq0) hge
      have hcomm : ((t + 1) * (s.length - 1)) / q * q =
          q * (((t + 1) * (s.length - 1)) / q) := Nat.mul_comm _ _
      have hi2 : t * (s.length - 1) < ((t + 1) * (s.length - 1)) / q * q := by
        omega
      have hi3 : ((t + 1) * (s.length - 1)) / q < s.length := by
        rw [Nat.div_lt_iff_lt_mul hq0]
        have h1 : (t + 1) * (s.length - 1) ≤ q * (s.length - 1) :=
          Nat.mul_le_mul_right _ (by omega)
        have h2 : q * (s.length - 1) < q * s.length :=
          mul_lt_mul_of_pos_left (by omega) (by omega)
        calc (t + 1) * (s.length - 1) ≤ q * (s.length - 1) := h1
          _ < q * s.length := h2
          _ = s.length * q := Nat.mul_comm _ _
      refine ⟨((t + 1) * (s.length - 1)) / q, hi3, ?_⟩
      rw [qcutLabel_getD hs hq hn hi3]
      have hcongr : ∀ j ∈ List.range (q - 1),
          decide ((j + 1) * (s.length - 1) < ((t + 1) * (s.length - 1)) / q * q) =
            decide (j < t) := by
        intro j _
        rcases Nat.lt_or_ge j t with hj | hj
        · have hle : (j + 1) * (s.length - 1) ≤ t * (s.length - 1) :=
            Nat.mul_le_mul_right _ (by omega)
          simp only [decide_eq_decide]
          omega
        · have hle : (t + 1) * (s.length - 1) ≤ (j + 1) * (s.length - 1) :=
            Nat.mul_le_mul_right _ (by omega)
          simp only [decide_eq_decide]
          omega
      rw [List.countP_congr (fun j hj => by rw [hcongr j hj])]
      rw [countP_range_lt]
      omega
    · -- t = q - 1 : witness i = s.length - 1
      have htq : t = q - 1 := by omega
      subst htq
      refine ⟨s.length - 1, by omega, ?_⟩
      rw [qcutLabel_getD hs hq hn (by omega)]
      rw [List.countP_eq_length.mpr ?_]
      · simp
      · intro j hj
        have hjq : j < q - 1 := List.mem_range.mp hj
        simp only [decide_eq_true_eq]
        have h1 : (j + 1) * (s.length - 1) < q * (s.length - 1) := by
          have := Nat.mul_lt_mul_of_lt_of_le (show j + 1 < q by omega)
            (le_refl (s.length - 1)) (show 0 < s.length - 1 by omega)
          omega
        have h2 : q * (s.length - 1) = (s.length - 1) * q := Nat.mul_comm _ _
        omega

/-! ## C2 — quantile completeness -/

theorem qcutLabel_lt_q {s : List ℚ} {q : ℕ} (hq : 1 ≤ q) (v : ℚ) :
    qcutLabel s q v < q := by
  have h1 : qcutLabel s q v ≤ (interiorEdges s q).length :=
    List.countP_le_length _
  have h2 : (interiorEdges s q).length = q - 1 := by
    unfold interiorEdges
    simp
  omega

/-- C2 counterexample — the claim as stated is false on the code:
(a) per-date path: a date whose cross-section has the factor values
1, 2, 2, 5 and `Q = 4` (so 4 ≥ Q non-missing observations) yields only the
3 distinct labels {0, 1, 3} — the tie at 2 leaves bin 2 empty;
(b) `FactorSort.compute` bins the POOLED per-date ranks of all dates at
once: with Q = 2, date 1 of `wideF` has 2 ≥ Q non-missing observations but
both of its stocks land in group 1 and group 2 is unused at that date. -/
theorem quantile_completeness_counterexample :
    groupingLabelsAt panelTies 1 4 =
      some [some 0, some 1, some 1, some 3] ∧
    ((crossSection panelTies 1).map (fun r => r.target)).filterMap id =
      [1, 2, 2, 5] ∧
    sortGroupLabels wideF 2 =
      some [[some 1, some 1, some 2, some 2], [some 1, some 1, none, none]] ∧
    ¬ some 2 ∈ [some 1, some 1, none, (none : Option ℕ)] ∧
    ([some (1 : ℚ), some 2, none, none].filterMap id).length = 2 := by
  refine ⟨?_, ?_, ?_, ?_, ?_⟩ <;> with_unfolding_all decide

/-- C2 amended — quantile completeness holds for the per-date assignment
when the cross-section's non-missing factor values are pairwise distinct:
with at least Q ≥ 2 distinct non-missing observations, `pd.qcut` succeeds
(edges strictly increase, so no duplicate-edge raise), every non-missing
row receives a label, all labels lie in [0, Q-1], and every one of the Q
labels is used by at least one row.  (With ties, or under `FactorSort`'s
pooled cross-date binning, the property fails — see the counterexample.) -/
theorem qcut_distinct_completeness (vals : List (Option ℚ)) (q : ℕ)
    (hq : 2 ≤ q) (hn : q ≤ (vals.filterMap id).length)
    (hnd : (vals.filterMap id).Nodup) :
    ∃ ls, qcut vals q = some ls ∧
      ls.length = vals.length ∧
      (∀ i, i < vals.length → ((ls.getD i none).isSome ↔ (vals.getD i none).isSome)) ∧
      (∀ o ∈ ls, ∀ t, o = some t → t < q) ∧
      (∀ t, t < q → some t ∈ ls) := by
  have hperm : ((vals.filterMap id).mergeSort (fun a b => a ≤ b)).Perm
      (vals.filterMap id) := List.mergeSort_perm _ _
  have hsorted : ((vals.filterMap id).mergeSort (fun a b => a ≤ b)).Sorted (· ≤ ·) :=
    List.sorted_mergeSort' _
  have hnodup : ((vals.filterMap id).mergeSort (fun a b => a ≤ b)).Nodup :=
    (hperm.nodup_iff).mpr hnd
  have hs : List.Pairwise (· < ·) ((vals.filterMap id).mergeSort (fun a b => a ≤ b)) :=
    hsorted.lt_of_le hnodup
  have hlen : ((vals.filterMap id).mergeSort (fun a b => a ≤ b)).length =
      (vals.filterMap id).length := hperm.length_eq
  have hqs : q ≤ ((vals.filterMap id).mergeSort (fun a b => a ≤ b)).length := by
    omega
  have hedges := strictAsc_qEdges hs hq hqs
  refine ⟨vals.map (Option.map (fun v =>
    qcutLabel ((vals.filterMap id).mergeSort (fun a b => a ≤ b)) q v)), ?_, ?_, ?_, ?_, ?_⟩
  · show (if strictAsc (qEdges ((vals.filterMap id).mergeSort (fun a b => a ≤ b)) q) = true
      then some (vals.map (Option.map (fun v =>
        qcutLabel ((vals.filterMap id).mergeSort (fun a b => a ≤ b)) q v)))
      else none) = _
    rw [if_pos hedges]
  · simp
  · intro i hi
    have hi' : i < (vals.map (Option.map (fun v =>
        qcutLabel ((vals.filterMap id).mergeSort (fun a b => a ≤ b)) q v))).length := by
      simpa using hi
    rw [List.getD_eq_getElem _ _ hi', List.getD_eq_getElem _ _ hi,
      List.getElem_map]
    simp
  · intro o ho t hot
    obtain ⟨v, _, hv⟩ := List.mem_map.mp ho
    subst hot
    cases v with
    | none => simp at hv
    | some w =>
      simp only [Option.map_some'] at hv
      have := qcutLabel_lt_q (show 1 ≤ q by omega)
        (s := (vals.filterMap id).mergeSort (fun a b => a ≤ b)) w
      rw [← (Option.some.injEq _ _).mp hv]
      exact this
  · intro t ht
    obtain ⟨i, hi, hlab⟩ := qcut_label_surj hs hq hqs t ht
    have hw : ((vals.filterMap id).mergeSort (fun a b => a ≤ b)).getD i 0 ∈
        (vals.filterMap id).mergeSort (fun a b => a ≤ b) := by
      rw [List.getD_eq_getElem _ _ hi]
      exact List.getElem_mem _
    have hwnm : ((vals.filterMap id).mergeSort (fun a b => a ≤ b)).getD i 0 ∈
        vals.filterMap id := hperm.mem_iff.mp hw
    obtain ⟨o, ho, hoi⟩ := List.mem_filterMap.mp hwnm
    refine List.mem_map.mpr ⟨o, ho, ?_⟩
    rw [show o = some (((vals.filterMap id).mergeSort (fun a b => a ≤ b)).getD i 0)
      from hoi]
    rw [Option.map_some', hlab]

/-! ## C6 — long-short sign property -/

theorem countP_lt_countP {α : Type} {l : List α} {p r : α → Bool}
    (hsub : ∀ x ∈ l, p x = true → r x = true) {a : α} (ha : a ∈ l)
    (hra : r a = true) (hpa : p a = false) : l.countP p < l.countP r := by
  induction l with
  | nil => cases ha
  | cons b t ih =>
    rw [List.countP_cons, List.countP_cons]
    have hmono : t.countP p ≤ t.countP r :=
      List.countP_mono_left (fun x hx => hsub x (List.mem_cons_of_mem b hx))
    rcases List.mem_cons.mp ha with rfl | hat
    · rw [hra, hpa]
      simp
      omega
    · have hrec := ih (fun x hx hpx => hsub x (List.mem_cons_of_mem b hx) hpx) hat
      by_cases hpb : p b = true
      · rw [hpb, hsub b (List.mem_cons_self b t) hpb]
        omega
      · rw [Bool.not_eq_true] at hpb
        rw [hpb]
        cases hrb : r b <;> simp <;> omega

theorem rankVal_lt {row : List (Option ℚ)} {t u : ℕ} {a b : ℚ}
    (ht : t < row.length) (hta : row.getD t none = some a)
    (hab : a < b) : rankVal row t a < rankVal row u b := by
  rw [List.getD_eq_getElem _ _ ht] at hta
  unfold rankVal
  have hcount : (row.enum.countP (fun p =>
      match p.2 with
      | some w => decide (w < a ∨ (w = a ∧ p.1 < t))
      | none => false)) < (row.enum.countP (fun p =>
      match p.2 with
      | some w => decide (w < b ∨ (w = b ∧ p.1 < u))
      | none => false)) := by
    refine countP_lt_countP ?_ (a := (t, some a)) ?_ ?_ ?_
    · intro x _ hx
      cases hx2 : x.2 with
      | none => rw [hx2] at hx; simp at hx
      | some w =>
        rw [hx2] at hx
        simp only [decide_eq_true_eq] at hx ⊢
        left
        rcases hx with h | ⟨h, _⟩
        · linarith
        · rw [h]; exact hab
    · have henum := List.getElem_enum row t
        (show t < row.enum.length by simpa using ht)
      rw [hta] at henum
      exact henum ▸ List.getElem_mem _
    · simp only [decide_eq_true_eq]
      left
      exact hab
    · simp
  have h1 : ((row.enum.countP (fun p =>
      match p.2 with
      | some w => decide (w < a ∨ (w = a ∧ p.1 < t))
      | none => false) : ℕ) : ℚ) < ((row.enum.countP (fun p =>
      match p.2 with
      | some w => decide (w < b ∨ (w = b ∧ p.1 < u))
      | none => false) : ℕ) : ℚ) := by exact_mod_cast hcount
  linarith

theorem sortGroupLabels_some {F : List (List (Option ℚ))} {q : ℕ}
    {ls : List (List (Option ℕ))} (h : sortGroupLabels F q = some ls) :
    ls = (F.map rankFirstRow).map (fun row => row.map (Option.map (fun v =>
      qcutLabel ((stackVals (F.map rankFirstRow)).mergeSort (fun a b => a ≤ b))
        q v + 1))) := by
  unfold sortGroupLabels at h
  by_cases hcond : strictAsc (qEdges
      ((stackVals (F.map rankFirstRow)).mergeSort (fun a b => a ≤ b)) q) = true
  · rw [if_pos hcond] at h
    exact ((Option.some.injEq _ _).mp h).symm
  · rw [if_neg hcond] at h
    cases h

theorem maskedMean_mem {labels : List (Option ℕ)} {rets : List (Option ℚ)}
    {g : ℕ} {m : ℚ} (h : maskedMean labels rets g = some m) :
    ∀ x ∈ (labels.zip rets).filterMap
      (fun p => if p.1 = some g then p.2 else none),
      ∃ j, j < labels.length ∧ j < rets.length ∧
        labels.getD j none = some g ∧ rets.getD j none = some x := by
  intro x hx
  obtain ⟨p, hp, hpx⟩ := List.mem_filterMap.mp hx
  by_cases hpg : p.1 = some g
  · rw [if_pos hpg] at hpx
    obtain ⟨j, hj, hjp⟩ := List.mem_iff_getElem.mp hp
    have hjl : j < labels.length := by
      have := hj
      simp only [List.length_zip] at this
      omega
    have hjr : j < rets.length := by
      have := hj
      simp only [List.length_zip] at this
      omega
    have hz := @List.getElem_zip _ _ labels rets j hj
    rw [hjp] at hz
    refine ⟨j, hjl, hjr, ?_, ?_⟩
    · rw [List.getD_eq_getElem _ _ hjl]
      have h1 := congrArg Prod.fst hz
      simp only [] at h1
      rw [← h1]
      exact hpg
    · rw [List.getD_eq_getElem _ _ hjr]
      have h2 := congrArg Prod.snd hz
      simp only [] at h2
      rw [← h2]
      exact hpx
  · rw [if_neg hpg] at hpx
    cases hpx

theorem maskedMean_some {labels : List (Option ℕ)} {rets : List (Option ℚ)}
    {g : ℕ} {m : ℚ} (h : maskedMean labels rets g = some m) :
    (labels.zip rets).filterMap (fun p => if p.1 = some g then p.2 else none) ≠ [] ∧
    m = ((labels.zip rets).filterMap
        (fun p => if p.1 = some g then p.2 else none)).sum /
      ((labels.zip rets).filterMap
        (fun p => if p.1 = some g then p.2 else none)).length := by
  unfold maskedMean omean at h
  by_cases hne : (labels.zip rets).filterMap
      (fun p => if p.1 = some g then p.2 else none) = []
  · rw [if_pos hne] at h
    cases h
  · rw [if_neg hne] at h
    exact ⟨hne, ((Option.some.injEq _ _).mp h).symm⟩

theorem mean_le_mean {A B : List ℚ} (hA : A ≠ []) (hB : B ≠ [])
    (h : ∀ a ∈ A, ∀ b ∈ B, b ≤ a) :
    B.sum / (B.length : ℚ) ≤ A.sum / (A.length : ℚ) := by
  have hAlen : (0 : ℚ) < (A.length : ℚ) := by
    have := List.length_pos.mpr hA
    exact_mod_cast this
  have hBlen : (0 : ℚ) < (B.length : ℚ) := by
    have := List.length_pos.mpr hB
    exact_mod_cast this
  have hstep : ∀ a ∈ A, B.sum / (B.length : ℚ) ≤ a := by
    intro a ha
    rw [div_le_iff hBlen]
    have := List.sum_le_card_nsmul B a (fun b hb => h a ha b hb)
    rw [nsmul_eq_mul] at this
    linarith [this]
  have hsum : (A.length : ℚ) * (B.sum / (B.length : ℚ)) ≤ A.sum := by
    have := List.card_nsmul_le_sum A (B.sum / (B.length : ℚ)) hstep
    rw [nsmul_eq_mul] at this
    exact this
  rw [div_le_div_iff hBlen hAlen]
  calc B.sum * (A.length : ℚ) = (A.length : ℚ) * B.sum := by ring
    _ ≤ (A.length : ℚ) * ((B.sum / (B.length : ℚ)) * (B.length : ℚ)) := by
        rw [div_mul_cancel₀]
        exact ne_of_gt hBlen
    _ = ((A.length : ℚ) * (B.sum / (B.length : ℚ))) * (B.length : ℚ) := by ring
    _ ≤ A.sum * (B.length : ℚ) := by
        exact mul_le_mul_of_nonneg_right hsum (le_of_lt hBlen)

theorem sortLabel_cell {F : List (List (Option ℚ))} {q : ℕ}
    {ls : List (List (Option ℕ))} (hls : sortGroupLabels F q = some ls)
    {i t : ℕ} (hi : i < ls.length) (ht : t < (ls.getD i []).length) {g : ℕ}
    (hcell : (ls.getD i []).getD t none = some g) :
    ∃ v : ℚ, i < F.length ∧ t < (F.getD i []).length ∧
      (F.getD i []).getD t none = some v ∧
      qcutLabel ((stackVals (F.map rankFirstRow)).mergeSort (fun a b => a ≤ b)) q
        (rankVal (F.getD i []) t v) + 1 = g := by
  have hchar := sortGroupLabels_some hls
  subst hchar
  have hiF : i < F.length := by simpa using hi
  have hFgetD : F.getD i [] = F[i] := List.getD_eq_getElem _ _ hiF
  have hrowEq : ((F.map rankFirstRow).map (fun row => row.map (Option.map (fun v =>
      qcutLabel ((stackVals (F.map rankFirstRow)).mergeSort (fun a b => a ≤ b))
        q v + 1)))).getD i [] =
      (rankFirstRow F[i]).map (Option.map (fun v =>
        qcutLabel ((stackVals (F.map rankFirstRow)).mergeSort (fun a b => a ≤ b))
          q v + 1)) := by
    rw [List.getD_eq_getElem _ _ hi]
    simp [List.getElem_map]
  rw [hrowEq] at ht hcell
  have htF : t < (F[i]).length := by
    simpa [rankFirstRow] using ht
  have htm : t < ((rankFirstRow F[i]).map (Option.map (fun v =>
      qcutLabel ((stackVals (F.map rankFirstRow)).mergeSort (fun a b => a ≤ b))
        q v + 1))).length := by
    simpa [rankFirstRow] using htF
  rw [List.getD_eq_getElem _ _ htm, List.getElem_map] at hcell
  have htr : t < (rankFirstRow F[i]).length := by
    simpa [rankFirstRow] using htF
  have hrank : (rankFirstRow F[i])[t] =
      ((F[i])[t]).map (fun v => rankVal F[i] t v) := by
    unfold rankFirstRow
    rw [List.getElem_map, List.getElem_enum]
  rw [hrank] at hcell
  obtain ⟨r, hr1, hr2⟩ := Option.map_eq_some'.mp hcell
  obtain ⟨v, hv1, hv2⟩ := Option.map_eq_some'.mp hr1
  refine ⟨v, hiF, ?_, ?_, ?_⟩
  · rw [hFgetD]
    exact htF
  · rw [hFgetD, List.getD_eq_getElem _ _ htF]
    exact hv1
  · rw [hFgetD, hv2, hr2]

/-- C6 amended — `FactorSort`'s spread is, at each date, the mean return of
group `q` minus the mean return of group `1`; and when the forward return
is a monotone function of the factor within each date's cross-section, the
spread is non-negative at every date where it is DEFINED.  (At a date where
one of the two extreme groups is empty the spread is `NaN` — the pooled
cross-date binning can produce such dates, see the counterexample — so the
claim's "non-negative at every date" fails as stated.) -/
theorem long_short_sign (F R : List (List (Option ℚ))) (q : ℕ)
    (hmono : ∀ i t u a b ra rb,
      (F.getD i []).getD t none = some a →
      (F.getD i []).getD u none = some b →
      (R.getD i []).getD t none = some ra →
      (R.getD i []).getD u none = some rb →
      a ≤ b → ra ≤ rb) :
    ∀ ls, sortGroupLabels F q = some ls →
      (factorSortSpread F R q = some ((ls.zip R).map (fun p =>
        match maskedMean p.1 p.2 q, maskedMean p.1 p.2 1 with
        | some a, some b => some (a - b)
        | _, _ => none))) ∧
      (∀ i a b, maskedMean (ls.getD i []) (R.getD i []) q = some a →
        maskedMean (ls.getD i []) (R.getD i []) 1 = some b → b ≤ a) ∧
      (∀ i v, ((ls.zip R).map (fun p =>
        match maskedMean p.1 p.2 q, maskedMean p.1 p.2 1 with
        | some a, some b => some (a - b)
        | _, _ => none)).getD i none = some v → 0 ≤ v) := by
  intro ls hls
  have hpart2 : ∀ i a b, maskedMean (ls.getD i []) (R.getD i []) q = some a →
      maskedMean (ls.getD i []) (R.getD i []) 1 = some b → b ≤ a := by
    intro i a b hma hmb
    by_cases hi : i < ls.length
    · rcases Nat.lt_or_ge q 2 with hqlt | hq2
      · -- degenerate group counts: q = 0 is impossible (labels are ≥ 1),
        -- and for q = 1 the two groups coincide, so the means are equal
        interval_cases q
        · exfalso
          obtain ⟨hAne, _⟩ := maskedMean_some hma
          obtain ⟨x, hx⟩ := List.exists_mem_of_ne_nil _ hAne
          obtain ⟨t, htl, htr, hLt, hRt⟩ := maskedMean_mem hma x hx
          obtain ⟨vt, hiF, htF, hFvt, hlabt⟩ := sortLabel_cell hls hi htl hLt
          omega
        · rw [hma] at hmb
          exact le_of_eq ((Option.some.injEq _ _).mp hmb).symm
      have hq1 : 1 ≤ q := by omega
      obtain ⟨hAne, ha⟩ := maskedMean_some hma
      obtain ⟨hBne, hb⟩ := maskedMean_some hmb
      rw [ha, hb]
      apply mean_le_mean hAne hBne
      intro ra hra rb hrb
      obtain ⟨t, htl, htr, hLt, hRt⟩ := maskedMean_mem hma ra hra
      obtain ⟨u, hul, hur, hLu, hRu⟩ := maskedMean_mem hmb rb hrb
      obtain ⟨vt, hiF, htF, hFvt, hlabt⟩ := sortLabel_cell hls hi htl hLt
      obtain ⟨vu, hiF', huF, hFvu, hlabu⟩ := sortLabel_cell hls hi hul hLu
      have hqt : qcutLabel ((stackVals (F.map rankFirstRow)).mergeSort
          (fun x y => x ≤ y)) q (rankVal (F.getD i []) t vt) = q - 1 := by
        have hql := qcutLabel_lt_q (q := q) hq1
          (s := (stackVals (F.map rankFirstRow)).mergeSort
            (fun x y => x ≤ y)) (rankVal (F.getD i []) t vt)
        omega
      have hqu : qcutLabel ((stackVals (F.map rankFirstRow)).mergeSort
          (fun x y => x ≤ y)) q (rankVal (F.getD i []) u vu) = 0 := by
        omega
      have hElen : (interiorEdges ((stackVals (F.map rankFirstRow)).mergeSort
          (fun x y => x ≤ y)) q).length = q - 1 := by
        unfold interiorEdges
        simp
      have hEne : 0 < (interiorEdges ((stackVals (F.map rankFirstRow)).mergeSort
          (fun x y => x ≤ y)) q).length := by omega
      have hetop : ∀ e ∈ interiorEdges ((stackVals (F.map rankFirstRow)).mergeSort
          (fun x y => x ≤ y)) q, e < rankVal (F.getD i []) t vt := by
        intro e he
        have hall := List.countP_eq_length.mp (by
          unfold qcutLabel at hqt
          rw [hqt, ← hElen])
        have := hall e he
        simpa using this
      have hebot : ∀ e ∈ interiorEdges ((stackVals (F.map rankFirstRow)).mergeSort
          (fun x y => x ≤ y)) q, ¬ (e < rankVal (F.getD i []) u vu) := by
        intro e he
        have hall := List.countP_eq_zero.mp (by
          unfold qcutLabel at hqu
          exact hqu)
        have := hall e he
        simpa using this
      have hrr : rankVal (F.getD i []) u vu < rankVal (F.getD i []) t vt := by
        have hmem : (interiorEdges ((stackVals (F.map rankFirstRow)).mergeSort
            (fun x y => x ≤ y)) q).get ⟨0, hEne⟩ ∈
            interiorEdges ((stackVals (F.map rankFirstRow)).mergeSort
            (fun x y => x ≤ y)) q := List.get_mem _ _ _
        have h1 := hetop _ hmem
        have h2 := hebot _ hmem
        push_neg at h2
        exact lt_of_le_of_lt h2 h1
      have hvv : vu ≤ vt := by
        by_contra hh
        push_neg at hh
        have := @rankVal_lt (F.getD i []) t u vt vu htF hFvt hh
        linarith
      refine hmono i u t vu vt rb ra ?_ ?_ ?_ ?_ hvv
      · exact hFvu
      · exact hFvt
      · exact hRu
      · exact hRt
    · exfalso
      rw [List.getD_eq_default _ _ (by omega)] at hma
      simp [maskedMean, omean] at hma
  refine ⟨?_, hpart2, ?_⟩
  · unfold factorSortSpread
    rw [hls]
    rfl
  · intro i v hv
    by_cases him : i < ((ls.zip R).map (fun p =>
        match maskedMean p.1 p.2 q, maskedMean p.1 p.2 1 with
        | some a, some b => some (a - b)
        | _, _ => none)).length
    · have hil : i < ls.length := by
        simp only [List.length_map, List.length_zip] at him
        omega
      have hir : i < R.length := by
        simp only [List.length_map, List.length_zip] at him
        omega
      rw [List.getD_eq_getElem _ _ him, List.getElem_map] at hv
      rw [@List.getElem_zip _ _ ls R i (by simpa using him)] at hv
      cases hma : maskedMean ls[i] R[i] q with
      | none => rw [hma] at hv; simp at hv
      | some a =>
        cases hmb : maskedMean ls[i] R[i] 1 with
        | none => rw [hma, hmb] at hv; simp at hv
        | some b =>
          rw [hma, hmb] at hv
          simp only [Option.some.injEq] at hv
          have hba := hpart2 i a b (by
            rw [List.getD_eq_getElem _ _ hil, List.getD_eq_getElem _ _ hir]
            exact hma) (by
            rw [List.getD_eq_getElem _ _ hil, List.getD_eq_getElem _ _ hir]
            exact hmb)
          rw [← hv]
          linarith
    · rw [List.getD_eq_default _ _ (by omega)] at hv
      cases hv

/-- C6 counterexample — the claim as stated is false on the code: on `wideF`
with forward returns equal to the factor (an increasing map, premise shown
in the first conjunct), the spread at date 1 is `NaN` (`none`), not a
non-negative number — the pooled binning put both of date 1's stocks in
group 1, leaving group 2 empty. -/
theorem long_short_nan_counterexample :
    (∀ i t u a b ra rb,
      (wideF.getD i []).getD t none = some a →
      (wideF.getD i []).getD u none = some b →
      (wideF.getD i []).getD t none = some ra →
      (wideF.getD i []).getD u none = some rb →
      a ≤ b → ra ≤ rb) ∧
    factorSortSpread wideF wideF 2 = some [some 2, none] ∧
    [some (2 : ℚ), none].getD 1 none = none := by
  refine ⟨?_, ?_, ?_⟩
  · intro i t u a b ra rb h1 h2 h3 h4 hab
    rw [h1] at h3
    rw [h2] at h4
    rw [← (Option.some.injEq _ _).mp h3, ← (Option.some.injEq _ _).mp h4]
    exact hab
  · with_unfolding_all rfl
  · rfl

theorem long_short_sign_witness :
    (factorSortSpread wideF wideF 2 = some (([[some 1, some 1, some 2, some 2],
        [some 1, some 1, none, none]].zip wideF).map (fun p =>
        match maskedMean p.1 p.2 2, maskedMean p.1 p.2 1 with
        | some a, some b => some (a - b)
        | _, _ => none))) ∧
    (∀ i a b, maskedMean (([[some 1, some 1, some 2, some 2],
        [some 1, some 1, none, none]] : List (List (Option ℕ))).getD i [])
        (wideF.getD i []) 2 = some a →
      maskedMean (([[some 1, some 1, some 2, some 2],
        [some 1, some 1, none, none]] : List (List (Option ℕ))).getD i [])
        (wideF.getD i []) 1 = some b → b ≤ a) ∧
    (∀ i v, (([[some 1, some 1, some 2, some 2],
        [some 1, some 1, none, none]].zip wideF).map (fun p =>
        match maskedMean p.1 p.2 2, maskedMean p.1 p.2 1 with
        | some a, some b => some (a - b)
        | _, _ => none)).getD i none = some v → 0 ≤ v) :=
  long_short_sign wideF wideF 2
    (fun i t u a b ra rb h1 h2 h3 h4 hab => by
      rw [h1] at h3
      rw [h2] at h4
      rw [← (Option.some.injEq _ _).mp h3, ← (Option.some.injEq _ _).mp h4]
      exact hab)
    [[some 1, some 1, some 2, some 2], [some 1, some 1, none, none]]
    (by with_unfolding_all rfl)

theorem qcut_distinct_completeness_witness :
    2 ≤ 2 ∧ 2 ≤ (([some (1 : ℚ), some 2, some 3].filterMap id).length) ∧
    ([some (1 : ℚ), some 2, some 3].filterMap id).Nodup ∧
    (∃ ls, qcut [some (1 : ℚ), some 2, some 3] 2 = some ls ∧
      ls.length = [some (1 : ℚ), some 2, some 3].length ∧
      (∀ i, i < [some (1 : ℚ), some 2, some 3].length →
        ((ls.getD i none).isSome ↔
          (([some (1 : ℚ), some 2, some 3].getD i none)).isSome)) ∧
      (∀ o ∈ ls, ∀ t, o = some t → t < 2) ∧
      (∀ t, t < 2 → some t ∈ ls)) :=
  ⟨by decide, by with_unfolding_all decide, by with_unfolding_all decide,
    qcut_distinct_completeness [some 1, some 2, some 3] 2 (by decide)
      (by with_unfolding_all decide) (by with_unfolding_all decide)⟩
